import Mathlib

/-!
# netbin: a socket-to-subprocess bridge (`main.go`)

A shallow embedding of the parts of `main.go` that its specification talks about:

* the diagnostic drain (lines 127-151): `io.Pipe` read end, wrapped in an
  `io.LimitedReader`, wrapped in a `bufio.Reader`, read with `ReadString` in a loop;
* the keep-alive period computation (lines 90-96);
* the connection worker's sequence of calls (lines 84-181);
* the acceptor / worker / shutdown interleavings (lines 51-88 and 185-194);
* the sessions and their children, started through `exec.CommandContext`
  (lines 98-111), under the shutdown sequence.

Standard-library objects the program calls are embedded from their Go sources
(`bufio.Reader.fill`, `ReadSlice`, `collectFragments`, `io.LimitedReader.Read`,
`io.Pipe`, `semaphore.Weighted`, `exec.Cmd`), as far as `main.go` uses them.
-/

namespace Netbin

/-! ## Diagnostic drain: data -/

/-- One byte of the diagnostic stream. -/
abbrev Byte := UInt8

/-- The error values the drain can meet: `io.EOF`, `bufio.ErrBufferFull`
and `io.ErrNoProgress`. -/
inductive IOError where
  | EOF
  | ErrBufferFull
  | ErrNoProgress
  deriving DecidableEq, Repr

/-- The read end `errormsgs` of `io.Pipe()`. `writes` are the writes to the write end
`b` that have not been read yet, oldest first, the writer closing `b` after the last of
them (line 179). `eofSeen` records that a `Read` has returned the pipe's own `io.EOF`;
it is bookkeeping of this model only and is never read by the program. -/
structure PipeReader where
  writes : List (List Byte)
  eofSeen : Bool
  deriving DecidableEq, Repr

/-- `(*io.PipeReader).Read(p)` with `len(p) = n`: the reader copies as much of the
oldest pending write as fits into `p`; the write stays pending while bytes of it are
left (a zero-length write is handed over once, as a read of 0 bytes). When the writer
has closed the pipe and nothing is pending, the result is `0, io.EOF`. -/
def PipeReader.Read (p : PipeReader) (n : Nat) : List Byte × Option IOError × PipeReader :=
  match p.writes with
  | [] => ([], some IOError.EOF, { p with eofSeen := true })
  | w :: ws =>
    if w.length ≤ n then (w, none, { p with writes := ws })
    else (w.take n, none, { p with writes := w.drop n :: ws })

/-- The `io.LimitedReader` named `limitedLines`: `R` is the pipe's read end and `N` the
number of bytes it may still hand out. `N` is an `int64` in Go; the drain keeps it
between 0 and `maxLineLen`, so it is a natural number here. -/
structure LimitedReader where
  R : PipeReader
  N : Nat
  deriving DecidableEq, Repr

/-- `(*io.LimitedReader).Read(p)` with `len(p) = n`:
`if l.N <= 0 { return 0, EOF }; if len(p) > l.N { p = p[0:l.N] };
n, err = l.R.Read(p); l.N -= n`. -/
def LimitedReader.Read (l : LimitedReader) (n : Nat) :
    List Byte × Option IOError × LimitedReader :=
  if l.N = 0 then ([], some IOError.EOF, l)
  else
    let r := l.R.Read (min n l.N)
    (r.1, r.2.1, { R := r.2.2, N := l.N - r.1.length })

/-- The `bufio.Reader` named `output`. `size` is `len(b.buf)`, `buf` the unread bytes
`b.buf[b.r:b.w]`, `rd` the underlying reader and `err` the pending error `b.err`.
(`fill` slides the unread bytes to the start of the buffer before it reads, so the
free room is always `size - buf.length`.) -/
structure Reader where
  size : Nat
  buf : List Byte
  rd : LimitedReader
  err : Option IOError
  deriving DecidableEq, Repr

/-- The constant `maxConsecutiveEmptyReads` of package `bufio`. -/
def maxConsecutiveEmptyReads : Nat := 100

/-- The constant `defaultBufSize` of package `bufio`, the size `bufio.NewReader` uses. -/
def defaultBufSize : Nat := 4096

/-- The constant `maxLineLen` of the drain (line 129). -/
def maxLineLen : Nat := 4096

/-- The line terminator the drain passes to `ReadString` (line 140). -/
def newline : Byte := 10

/-- The retry loop of `(*bufio.Reader).fill`:
`for i := maxConsecutiveEmptyReads; i > 0; i-- { n, err := b.rd.Read(b.buf[b.w:]);
b.w += n; if err != nil { b.err = err; return }; if n > 0 { return } };
b.err = io.ErrNoProgress`. -/
def Reader.fillLoop : Nat → Reader → Reader
  | 0, b => { b with err := some IOError.ErrNoProgress }
  | i + 1, b =>
    let r := b.rd.Read (b.size - b.buf.length)
    let b1 : Reader := { b with buf := b.buf ++ r.1, rd := r.2.2 }
    match r.2.1 with
    | some e => { b1 with err := some e }
    | none => if 0 < r.1.length then b1 else Reader.fillLoop i b1

/-- `(*bufio.Reader).fill`. -/
def Reader.fill (b : Reader) : Reader := b.fillLoop maxConsecutiveEmptyReads

/-- `bytes.IndexByte`: the index of the first `c` in the slice, `none` for Go's `-1`. -/
def indexByte : List Byte → Byte → Option Nat
  | [], _ => none
  | x :: xs, c => if x = c then some 0 else (indexByte xs c).map (· + 1)

/-- The loop of `(*bufio.Reader).ReadSlice(delim)`, `s` being its search start index:
search `b.buf[b.r+s:b.w]`; on a hit return the line up to and including `delim`;
else on a pending error return what is buffered together with the error (`readErr`
clears it); else on a full buffer return the buffer with `ErrBufferFull`; else set
`s = b.w - b.r`, `fill` and go round again. `none` when `fuel` rounds did not suffice. -/
def Reader.readSliceLoop (delim : Byte) :
    Nat → Nat → Reader → Option (List Byte × Option IOError × Reader)
  | 0, _, _ => none
  | fuel + 1, s, b =>
    match indexByte (b.buf.drop s) delim with
    | some i =>
      some (b.buf.take (s + i + 1), none, { b with buf := b.buf.drop (s + i + 1) })
    | none =>
      match b.err with
      | some e => some (b.buf, some e, { b with buf := [], err := none })
      | none =>
        if b.size ≤ b.buf.length then
          some (b.buf, some IOError.ErrBufferFull, { b with buf := [] })
        else
          Reader.readSliceLoop delim fuel b.buf.length b.fill

/-- `(*bufio.Reader).ReadSlice(delim)`; every loop of the reader is bounded by `fuel`. -/
def Reader.ReadSlice (b : Reader) (fuel : Nat) (delim : Byte) :
    Option (List Byte × Option IOError × Reader) :=
  Reader.readSliceLoop delim fuel 0 b

/-- The loop of `(*bufio.Reader).collectFragments(delim)`: call `ReadSlice` until it
returns without error (the final fragment) or with an error other than
`ErrBufferFull`; a full buffer is copied to the fragments gathered so far (`full`). -/
def Reader.collectFragments (inner : Nat) (delim : Byte) :
    Nat → List Byte → Reader → Option (List Byte × Option IOError × Reader)
  | 0, _, _ => none
  | fuel + 1, full, b =>
    match b.ReadSlice inner delim with
    | none => none
    | some (frag, none, b1) => some (full ++ frag, none, b1)
    | some (frag, some e, b1) =>
      if e = IOError.ErrBufferFull then
        Reader.collectFragments inner delim fuel (full ++ frag) b1
      else some (full ++ frag, some e, b1)

/-- `(*bufio.Reader).ReadString(delim)`: the fragments of `collectFragments`
concatenated, with its error. -/
def Reader.ReadString (b : Reader) (fuel : Nat) (delim : Byte) :
    Option (List Byte × Option IOError × Reader) :=
  Reader.collectFragments fuel delim fuel [] b

/-- The assignment `limitedLines.N = n` (line 138), seen from the reader built on it. -/
def Reader.setN (b : Reader) (n : Nat) : Reader := { b with rd := { b.rd with N := n } }

/-- The drain loop (lines 137-150), `log` being the chunks passed to `log.Printf` so far:
`limitedLines.N = maxLineLen; ln, err := output.ReadString(10);
if len(ln) > 0 { log }; if err != nil { if limitedLines.N == 0 && err == io.EOF
{ continue }; return }`. The result is the log, the error the loop returned on and the
final reader. `cap` stands for `maxLineLen`; `inner` bounds the reader's loops and the
third argument the rounds of this one. -/
def drainLoop (cap inner : Nat) :
    Nat → Reader → List (List Byte) → Option (List (List Byte) × IOError × Reader)
  | 0, _, _ => none
  | fuel + 1, output, log =>
    let output : Reader := output.setN cap
    match output.ReadString inner newline with
    | none => none
    | some (ln, err, output) =>
      let log := if 0 < ln.length then log ++ [ln] else log
      match err with
      | some e =>
        if output.rd.N = 0 ∧ e = IOError.EOF then drainLoop cap inner fuel output log
        else some (log, e, output)
      | none => drainLoop cap inner fuel output log

/-- The reader `output` as the drain builds it (lines 131-136) over a pipe that will
carry `writes`: `bufio.NewReader(&io.LimitedReader{R: errormsgs, N: maxLineLen})`. -/
def newOutput (writes : List (List Byte)) : Reader :=
  { size := defaultBufSize
    buf := []
    rd := { R := { writes := writes, eofSeen := false }, N := maxLineLen }
    err := none }

/-- The diagnostic drain goroutine (lines 127-151) run over a pipe that carries
`writes` and is then closed. -/
def drain (fuel : Nat) (writes : List (List Byte)) :
    Option (List (List Byte) × IOError × Reader) :=
  drainLoop maxLineLen fuel fuel (newOutput writes) []

/-- The chunks the drain passes to `log.Printf`. -/
def drainLog (fuel : Nat) (writes : List (List Byte)) : Option (List (List Byte)) :=
  (drain fuel writes).map (·.1)

/-- The lines of a byte stream as the specification counts them: every line runs up to
and includes its terminator, and an unterminated remainder at the end is a line too. -/
def splitLines : List Byte → List (List Byte)
  | [] => []
  | x :: xs =>
    if x = newline then [x] :: splitLines xs
    else
      match splitLines xs with
      | [] => [[x]]
      | l :: ls => (x :: l) :: ls

/-- The bytes a reader has still to deliver: what is buffered, then what is pending
in the pipe. -/
def Reader.rest (b : Reader) : List Byte := b.buf ++ b.rd.R.writes.flatten

/-! ## Keep-alive period (lines 90-96) -/

/-- The kinds of connection the acceptor lets through (lines 76-81):
`*net.TCPConn` and `*net.UnixConn`. -/
inductive ConnKind where
  | tcp
  | unix
  deriving DecidableEq, Repr

/-- A Go `uint` value (64 bits wide, as on the platforms netbin is built for) converted
to `int64`: the same 64 bits read in two's complement. Used by `time.Duration(k)`
(line 94) and by `int64(*maxConcurrent)` (line 55). -/
def toInt64 (n : Nat) : Int :=
  if n % 2 ^ 64 < 2 ^ 63 then ((n % 2 ^ 64 : Nat) : Int) else ((n % 2 ^ 64 : Nat) : Int) - 2 ^ 64

/-- The product of two `int64` values as Go computes it: the exact product wrapped
into `[-2^63, 2^63)`. -/
def mulInt64 (a b : Int) : Int := (a * b + 2 ^ 63) % 2 ^ 64 - 2 ^ 63

/-- The constant `time.Second`, in nanoseconds. -/
def timeSecond : Int := 1000000000

/-- The expression `time.Second * time.Duration(*tcpKeepAlive)` of line 94. -/
def keepAlivePeriod (tcpKeepAlive : Nat) : Int := mulInt64 timeSecond (toInt64 tcpKeepAlive)

/-! ## Connection worker (lines 84-181) -/

/-- What a connection worker does, one constructor per call it makes. -/
inductive Action where
  /-- `conn.SetKeepAlive(true)`, line 93 -/
  | setKeepAlive
  /-- `conn.SetKeepAlivePeriod(d)`, line 94, `d` in nanoseconds -/
  | setKeepAlivePeriod (d : Int)
  /-- `cmd.Start()`, line 111 -/
  | cmdStart
  /-- `log.Printf("error starting subprocess for conn %s: %s", ...)`, line 113 -/
  | logStartError
  /-- `log.Printf("child pid=%d: serving conn from %s", ...)`, line 122 -/
  | logServing (pid : Nat)
  /-- `cmd.Process.Wait()`, line 154 -/
  | processWait
  /-- `log.Printf("child pid=%d: exited: success=%v", ...)`, line 156 -/
  | logExited (pid : Nat) (success : Bool)
  /-- `conn.CloseRead()`, lines 171 and 173 -/
  | closeRead
  /-- `cmd.Wait()`, line 177 -/
  | cmdWait
  /-- `conn.Close()`, line 178 -/
  | connClose
  /-- `b.Close()`, line 179 -/
  | pipeClose
  /-- `workerWg.Wait()` has returned: the drain goroutine is done, line 180 -/
  | drainDone
  /-- the deferred `concurrentConLimit.Release(1)`, line 87 -/
  | release
  /-- the deferred `wg.Done()`, line 85 -/
  | wgDone
  deriving DecidableEq, Repr

/-- Everything outside the worker that decides how one run of it goes: the two flags,
the kind of the accepted connection, and the result of each call that can fail. -/
structure WorkerEnv where
  /-- `hasConcurrencyControl`, line 53 -/
  hasConcurrencyControl : Bool
  /-- dynamic type of `conn` -/
  kind : ConnKind
  /-- the flag `*tcpKeepAlive` -/
  tcpKeepAlive : Nat
  /-- `cmd.Start()`: `some pid` when it returned nil (then `cmd.Process` is set and has
  this pid), `none` when it returned an error (then `cmd.Process` is nil) -/
  started : Option Nat
  /-- `cmd.Process.Wait()` returned a nil error -/
  processWaitOk : Bool
  /-- `state.Success()` -/
  success : Bool
  /-- `conn.CloseRead()` returned nil -/
  closeReadOk : Bool
  /-- `cmd.Wait()` returned nil -/
  cmdWaitOk : Bool
  /-- `conn.Close()` returned nil -/
  connCloseOk : Bool
  /-- what the child writes to its diagnostic channel, as writes to the pipe `b` -/
  diag : List (List Byte)
  deriving DecidableEq, Repr

/-- One run of a worker: its own calls in program order, and beside them what the
drain goroutine it started has logged (`pid` and chunk of each
`log.Printf("child pid=%d: %s", pid, ln)`, line 142). The drain runs concurrently with
the worker between `cmd.Start` and `workerWg.Wait`, so its lines are kept apart. -/
structure WorkerRun where
  steps : List Action
  drainLines : List (Nat × List Byte)
  deriving DecidableEq, Repr

/-- Lines 90-96: the keep-alive calls of a worker. -/
def keepAliveCalls (kind : ConnKind) (tcpKeepAlive : Nat) : List Action :=
  match kind with
  | ConnKind.tcp =>
    if 0 < tcpKeepAlive then
      [Action.setKeepAlive, Action.setKeepAlivePeriod (keepAlivePeriod tcpKeepAlive)]
    else []
  | ConnKind.unix => []

/-- Lines 111-123: `cmd.Start()`, the log line on its error, `pid`, and the
"serving" line when `cmd.Process` is set. -/
def startCalls (started : Option Nat) : List Action :=
  match started with
  | none => [Action.cmdStart, Action.logStartError]
  | some pid => [Action.cmdStart, Action.logServing pid]

/-- Lines 153-158: wait for the child when there is one; the exit line is printed
only when the wait returned no error. -/
def waitCalls (env : WorkerEnv) : List Action :=
  match env.started with
  | none => []
  | some pid =>
    if env.processWaitOk then [Action.processWait, Action.logExited pid env.success]
    else [Action.processWait]

/-- Lines 169-180: `CloseRead` (both arms of the type switch make the same call and drop
its result), `cmd.Wait`, `conn.Close`, `b.Close`, all results dropped, then
`workerWg.Wait`. -/
def teardownCalls : List Action :=
  [Action.closeRead, Action.cmdWait, Action.connClose, Action.pipeClose, Action.drainDone]

/-- Lines 85-88: the deferred calls, run in reverse order of their `defer`. -/
def deferredCalls (hasConcurrencyControl : Bool) : List Action :=
  if hasConcurrencyControl then [Action.release, Action.wgDone] else [Action.wgDone]

/-- The connection worker goroutine (lines 84-181). The drain it starts reads what the
child writes to `b` (nothing when no child was started) and `workerWg.Wait` returns
once the drain has; `none` when `fuel` does not suffice for the drain. -/
def worker (fuel : Nat) (env : WorkerEnv) : Option WorkerRun :=
  let pid := env.started.getD 0
  let writes := if env.started.isSome then env.diag else []
  match drainLog fuel writes with
  | none => none
  | some chunks =>
    some
      { steps := keepAliveCalls env.kind env.tcpKeepAlive ++ startCalls env.started ++
          waitCalls env ++ teardownCalls ++ deferredCalls env.hasConcurrencyControl
        drainLines := chunks.map (fun c => (pid, c)) }

/-- The `log.Printf` calls among the worker's own steps. -/
def Action.isLog : Action → Bool
  | Action.logStartError => true
  | Action.logServing _ => true
  | Action.logExited _ _ => true
  | _ => false

/-! ## Acceptor, workers and shutdown (lines 51-88, 185-194) -/

/-- Where the acceptor goroutine stands: at `concurrentConLimit.Acquire` (line 63),
at `l.Accept` (line 70), or returned (line 66). -/
inductive AcceptorPC where
  | acquire
  | accept
  | returned
  deriving DecidableEq, Repr

/-- Where `main` stands: blocked on `<-interrupted` (line 188), past `l.Close()`
(line 191), or past `shutdown()` and in `wg.Wait()` (lines 192-194). -/
inductive MainPC where
  | waitSignal
  | closed
  | waitGroup
  deriving DecidableEq, Repr

/-- The shared state of the process. `sem` is `concurrentConLimit`: `none` for the nil
pointer, `some cur` for a semaphore with `cur` tokens held. `workers` counts the
connection workers launched and not yet finished, `exit` is the exit status once
the process has ended. -/
structure Sys where
  sem : Option Nat
  acceptor : AcceptorPC
  main : MainPC
  workers : Nat
  exit : Option Nat
  deriving DecidableEq, Repr

/-- The steps the goroutines of the process take. -/
inductive Event where
  /-- `concurrentConLimit.Acquire(ctx, 1)` returns nil -/
  | acquireOk
  /-- `concurrentConLimit.Acquire(ctx, 1)` returns the context's error -/
  | acquireCancelled
  /-- `l.Accept()` returns a connection; its worker is launched -/
  | acceptOk
  /-- `l.Accept()` returns an error -/
  | acceptErr
  /-- a worker runs its deferred calls and ends -/
  | workerDone
  /-- the interrupt arrives: `signal.Reset()`, the log line, `l.Close()` -/
  | signal
  /-- `shutdown()`, the cancellation of `ctx` -/
  | shutdown
  /-- `wg.Wait()` returns and `main` with it -/
  | mainReturn
  deriving DecidableEq, Repr

/-- `hasConcurrencyControl := *maxConcurrent > 0` (line 53). -/
def hasConcurrencyControl (maxConcurrent : Nat) : Bool := decide (0 < maxConcurrent)

/-- The size of the semaphore, `int64(*maxConcurrent)` (line 55). -/
def semSize (maxConcurrent : Nat) : Int := toInt64 maxConcurrent

/-- The top of the acceptor's loop (lines 61-68): with concurrency control the next
call is `Acquire`, without it the next call is `Accept`. -/
def loopTop (maxConcurrent : Nat) : AcceptorPC :=
  if hasConcurrencyControl maxConcurrent then AcceptorPC.acquire else AcceptorPC.accept

/-- The process once the acceptor goroutine has been started (lines 49-59). -/
def Sys.init (maxConcurrent : Nat) : Sys :=
  { sem := if hasConcurrencyControl maxConcurrent then some 0 else none
    acceptor := loopTop maxConcurrent
    main := MainPC.waitSignal
    workers := 0
    exit := none }

/-- One step of the process, `none` when the step cannot be taken in this state.
* `acquireOk`: `semaphore.Weighted.Acquire` takes a token only when
  `s.size - s.cur >= 1`, and blocks otherwise.
* `acquireCancelled`: a blocked or starting `Acquire` returns the error of the
  cancelled context; the acceptor returns (line 66).
* `acceptOk`: the listener is open and hands out a connection; `wg.Add(1)` and the
  worker is launched (lines 83-84); the loop goes round.
* `acceptErr`: any error of `Accept` runs `log.Fatalf` (line 72), that is `os.Exit(1)`.
* `workerDone`: the deferred `Release(1)` when there is a semaphore (it panics, exit
  status 2, when more is released than held), then `wg.Done()`.
* `signal`, `shutdown`, `mainReturn`: lines 188-195; `wg.Wait()` returns when the
  acceptor and all workers are done, and the process ends with status 0. -/
def Sys.step (maxConcurrent : Nat) (s : Sys) (ev : Event) : Option Sys :=
  if s.exit.isSome then none
  else
    match ev with
    | Event.acquireOk =>
      match s.acceptor, s.sem with
      | AcceptorPC.acquire, some cur =>
        if (cur : Int) + 1 ≤ semSize maxConcurrent then
          some { s with sem := some (cur + 1), acceptor := AcceptorPC.accept }
        else none
      | _, _ => none
    | Event.acquireCancelled =>
      if s.acceptor = AcceptorPC.acquire ∧ s.main = MainPC.waitGroup then
        some { s with acceptor := AcceptorPC.returned }
      else none
    | Event.acceptOk =>
      if s.acceptor = AcceptorPC.accept ∧ s.main = MainPC.waitSignal then
        some { s with workers := s.workers + 1, acceptor := loopTop maxConcurrent }
      else none
    | Event.acceptErr =>
      if s.acceptor = AcceptorPC.accept then some { s with exit := some 1 } else none
    | Event.workerDone =>
      if s.workers = 0 then none
      else
        match s.sem with
        | none => some { s with workers := s.workers - 1 }
        | some cur =>
          if cur = 0 then some { s with exit := some 2 }
          else some { s with sem := some (cur - 1), workers := s.workers - 1 }
    | Event.signal =>
      if s.main = MainPC.waitSignal then some { s with main := MainPC.closed } else none
    | Event.shutdown =>
      if s.main = MainPC.closed then some { s with main := MainPC.waitGroup } else none
    | Event.mainReturn =>
      if s.main = MainPC.waitGroup ∧ s.acceptor = AcceptorPC.returned ∧ s.workers = 0 then
        some { s with exit := some 0 }
      else none

/-- A sequence of steps from a state. -/
def Sys.run (maxConcurrent : Nat) : List Event → Sys → Option Sys
  | [], s => some s
  | ev :: evs, s =>
    match Sys.step maxConcurrent s ev with
    | none => none
    | some s1 => Sys.run maxConcurrent evs s1

/-- The tokens held: `cur` of the semaphore, 0 when there is none. -/
def Sys.held (s : Sys) : Nat := s.sem.getD 0

/-- The token the acceptor holds between `Acquire` and the launch of the worker. -/
def Sys.acceptorToken (s : Sys) : Nat :=
  if s.sem.isSome ∧ s.acceptor = AcceptorPC.accept then 1 else 0

/-! ## Sessions and their children at shutdown (lines 84-181, 185-194) -/

/-- The life of the subprocess of one session. -/
inductive ChildState where
  /-- `cmd.Start()` (line 111) has not been called yet -/
  | notStarted
  /-- `cmd.Start()` returned the context's error without starting a process -/
  | refused
  /-- `cmd.Start()` returned another error; no process was started -/
  | failed
  /-- the process runs -/
  | running
  /-- the process ended by itself -/
  | exited
  /-- the process was killed by `os.Process.Kill` -/
  | killed
  deriving DecidableEq, Repr

/-- Where the worker of one session stands: before `cmd.Start()` (line 111), in
`cmd.Process.Wait()` (line 154) with its child started, past that wait (lines 159-180,
the deferred calls still to run), or ended. -/
inductive WorkerPC where
  | start
  | wait
  | teardown
  | done
  deriving DecidableEq, Repr

/-- One accepted session: its worker and its subprocess. -/
structure Session where
  pc : WorkerPC
  child : ChildState
  deriving DecidableEq, Repr

/-- The process with its sessions, in the order they were accepted: `sys` is the state
of acceptor, `main` and semaphore, `sessions` the workers launched at line 84. -/
structure Proc where
  sys : Sys
  sessions : List Session
  deriving DecidableEq, Repr

/-- The context `ctx` of line 24 is cancelled: `shutdown()` (line 192) has been
called. -/
def Proc.ctxDone (s : Proc) : Bool := decide (s.sys.main = MainPC.waitGroup)

/-- The outcome of `cmd.Start()` (line 111) on a command made by
`exec.CommandContext(ctx, ...)` (lines 101, 103): `Start` first looks at `ctx.Done()`
and returns `ctx.Err()` when the context is cancelled; else it starts the process, or
fails to. -/
def startResult (ctxDone spawnOk : Bool) : ChildState :=
  if ctxDone then ChildState.refused
  else if spawnOk then ChildState.running
  else ChildState.failed

/-- The steps of the process with its sessions. -/
inductive ProcEvent where
  /-- a step of the acceptor or of `main` -/
  | sys (ev : Event)
  /-- the worker of session `i` calls `cmd.Start()`, line 111 -/
  | cmdStart (i : Nat) (spawnOk : Bool)
  /-- the child of session `i` ends by itself -/
  | childExit (i : Nat)
  /-- the goroutine `Start` left for the command of session `i` sees `ctx.Done()` and
  calls `os.Process.Kill` -/
  | kill (i : Nat)
  /-- `cmd.Process.Wait()` returns in the worker of session `i`, line 154 -/
  | waitReturn (i : Nat)
  /-- the worker of session `i` runs the rest of its teardown and its deferred calls -/
  | finish (i : Nat)
  deriving DecidableEq, Repr

/-- One step of the process with its sessions, `none` when it cannot be taken.
* `sys ev`: the step of `Sys.step`; `acceptOk` launches the worker of a new session
  (lines 83-84); the end of a worker is not taken here but as `finish i`.
* `cmdStart i spawnOk`: line 111 in a living process; with a child the worker goes on
  to wait for it (line 154), without one (`cmd.Process == nil`) to its teardown.
* `childExit i`: a running child ends; a child does not need the process for that.
* `kill i`: the command was made with `ctx` (lines 101, 103), so from `Start` until
  `cmd.Wait()` (line 177) a goroutine of `os/exec` waits for `ctx.Done()` and then
  kills the process; it runs only while the process itself lives.
* `waitReturn i`: `cmd.Process.Wait()` returns, the child having ended, or with an
  error.
* `finish i`: lines 159-180 and the deferred calls, `Sys.step` taking `workerDone`. -/
def Proc.step (M : Nat) (s : Proc) (ev : ProcEvent) : Option Proc :=
  match ev with
  | ProcEvent.sys ev =>
    if ev = Event.workerDone then none
    else
      match Sys.step M s.sys ev with
      | none => none
      | some sys1 =>
        some
          { sys := sys1
            sessions :=
              if ev = Event.acceptOk then
                s.sessions ++ [{ pc := WorkerPC.start, child := ChildState.notStarted }]
              else s.sessions }
  | ProcEvent.cmdStart i spawnOk =>
    if s.sys.exit.isSome then none
    else
      match s.sessions[i]? with
      | none => none
      | some sess =>
        if sess.pc = WorkerPC.start then
          some
            { s with
              sessions :=
                s.sessions.set i
                  { pc :=
                      if startResult s.ctxDone spawnOk = ChildState.running then
                        WorkerPC.wait
                      else WorkerPC.teardown
                    child := startResult s.ctxDone spawnOk } }
        else none
  | ProcEvent.childExit i =>
    match s.sessions[i]? with
    | none => none
    | some sess =>
      if sess.child = ChildState.running then
        some { s with sessions := s.sessions.set i { sess with child := ChildState.exited } }
      else none
  | ProcEvent.kill i =>
    if s.sys.exit.isSome then none
    else
      match s.sessions[i]? with
      | none => none
      | some sess =>
        if s.ctxDone = true ∧ sess.child = ChildState.running ∧
            (sess.pc = WorkerPC.wait ∨ sess.pc = WorkerPC.teardown) then
          some { s with sessions := s.sessions.set i { sess with child := ChildState.killed } }
        else none
  | ProcEvent.waitReturn i =>
    if s.sys.exit.isSome then none
    else
      match s.sessions[i]? with
      | none => none
      | some sess =>
        if sess.pc = WorkerPC.wait then
          some { s with sessions := s.sessions.set i { sess with pc := WorkerPC.teardown } }
        else none
  | ProcEvent.finish i =>
    match s.sessions[i]? with
    | none => none
    | some sess =>
      if sess.pc = WorkerPC.teardown then
        match Sys.step M s.sys Event.workerDone with
        | none => none
        | some sys1 =>
          some { sys := sys1, sessions := s.sessions.set i { sess with pc := WorkerPC.done } }
      else none

/-- The process once the acceptor goroutine has been started, no session accepted. -/
def Proc.init (M : Nat) : Proc := { sys := Sys.init M, sessions := [] }

/-- A sequence of steps of the process with its sessions. -/
def Proc.run (M : Nat) : List ProcEvent → Proc → Option Proc
  | [], s => some s
  | ev :: evs, s =>
    match Proc.step M s ev with
    | none => none
    | some s1 => Proc.run M evs s1

/-- Every pending write carries at least one byte (`io.Copy`, which feeds the pipe for
`os/exec`, never writes an empty slice). -/
def NonEmptyWrites (ws : List (List Byte)) : Prop := ∀ w ∈ ws, w ≠ []

/-- The reader `b1` is reached from `b` by handing out the bytes `out`: nothing of the
stream is lost or reordered, and every byte taken from the pipe is counted in `N`. -/
structure Reader.Adv (b b1 : Reader) (out : List Byte) : Prop where
  size_eq : b1.size = b.size
  rest_eq : out ++ b1.rest = b.rest
  count : b1.rd.N + out.length + b1.buf.length = b.rd.N + b.buf.length
  eof_mono : b.rd.R.eofSeen = true → b1.rd.R.eofSeen = true
  nonempty : NonEmptyWrites b.rd.R.writes → NonEmptyWrites b1.rd.R.writes
  bounded : b.buf.length ≤ b.size → b1.buf.length ≤ b1.size

/-- A pending error of the reader is `io.EOF`, and it came either from the exhausted
limit (`N = 0`) or from the closed, empty pipe. -/
def Reader.ErrOK (b : Reader) : Prop :=
  ∀ e, b.err = some e →
    e = IOError.EOF ∧ (b.rd.N = 0 ∨ (b.rd.R.writes = [] ∧ b.rd.R.eofSeen = true))

/-! ## Theorems -/

theorem PipeReader.pipeRead_spec {p : PipeReader} {n : Nat} {d : List Byte}
    {e : Option IOError} {p1 : PipeReader} (h : p.Read n = (d, e, p1)) :
    d ++ p1.writes.flatten = p.writes.flatten ∧
    d.length ≤ n ∧
    (p.eofSeen = true → p1.eofSeen = true) ∧
    (NonEmptyWrites p.writes → NonEmptyWrites p1.writes) ∧
    (∀ x, e = some x →
      x = IOError.EOF ∧ d = [] ∧ p1.writes = [] ∧ p1.eofSeen = true) ∧
    (NonEmptyWrites p.writes → 0 < n → e = none → d ≠ []) := by
  unfold PipeReader.Read at h
  cases hw : p.writes with
  | nil =>
    rw [hw] at h
    simp only [Prod.mk.injEq] at h
    obtain ⟨rfl, rfl, rfl⟩ := h
    simp [NonEmptyWrites, hw]
  | cons w ws =>
    rw [hw] at h
    by_cases hle : w.length ≤ n
    · simp only [if_pos hle, Prod.mk.injEq] at h
      obtain ⟨rfl, rfl, rfl⟩ := h
      refine ⟨by simp, hle, fun h => h, ?_, by simp, ?_⟩
      · intro h x hx
        exact h x (List.mem_cons_of_mem _ hx)
      · intro h _ _
        exact h _ (List.mem_cons_self _ _)
    · simp only [if_neg hle, Prod.mk.injEq] at h
      obtain ⟨rfl, rfl, rfl⟩ := h
      refine ⟨?_, ?_, fun h => h, ?_, by simp, ?_⟩
      · show List.take n w ++ (List.drop n w :: ws).flatten = (w :: ws).flatten
        rw [List.flatten_cons, List.flatten_cons, ← List.append_assoc,
          List.take_append_drop]
      · rw [List.length_take]
        omega
      · intro h x hx
        rcases List.mem_cons.1 hx with rfl | hx
        · intro h0
          have := congrArg List.length h0
          simp at this
          omega
        · exact h x (List.mem_cons_of_mem _ hx)
      · intro _ hn _ h0
        have h1 : (List.take n w).length = 0 := by
          rw [h0]
          rfl
        rw [List.length_take] at h1
        omega

theorem LimitedReader.limitedRead_spec {l : LimitedReader} {n : Nat} {d : List Byte}
    {e : Option IOError} {l1 : LimitedReader} (h : l.Read n = (d, e, l1)) :
    d ++ l1.R.writes.flatten = l.R.writes.flatten ∧
    d.length ≤ n ∧
    l1.N + d.length = l.N ∧
    (l.R.eofSeen = true → l1.R.eofSeen = true) ∧
    (NonEmptyWrites l.R.writes → NonEmptyWrites l1.R.writes) ∧
    (∀ x, e = some x →
      x = IOError.EOF ∧ d = [] ∧ (l1.N = 0 ∨ (l1.R.writes = [] ∧ l1.R.eofSeen = true))) ∧
    (NonEmptyWrites l.R.writes → 0 < n → e = none → d ≠ []) := by
  unfold LimitedReader.Read at h
  by_cases hN : l.N = 0
  · simp only [if_pos hN, Prod.mk.injEq] at h
    obtain ⟨rfl, rfl, rfl⟩ := h
    simp [hN]
  · simp only [if_neg hN, Prod.mk.injEq] at h
    obtain ⟨hd, he, hl⟩ := h
    obtain ⟨h1, h2, h3, h4, h5, h6⟩ :=
      @PipeReader.pipeRead_spec l.R (min n l.N) d e l1.R (by rw [← hd, ← he, ← hl])
    have hlen : d.length ≤ l.N := by omega
    have hN1 : l1.N = l.N - d.length := by rw [← hl, hd]
    refine ⟨h1, by omega, by omega, h3, h4, ?_, ?_⟩
    · intro x hx
      obtain ⟨a, b, c, d⟩ := h5 x hx
      exact ⟨a, b, Or.inr ⟨c, d⟩⟩
    · intro hne hn hnone
      exact h6 hne (by omega) hnone

theorem Reader.Adv.refl (b : Reader) : Reader.Adv b b [] :=
  ⟨rfl, rfl, by simp, fun h => h, fun h => h, fun h => h⟩

theorem Reader.Adv.trans {b b1 b2 : Reader} {o1 o2 : List Byte}
    (h1 : Reader.Adv b b1 o1) (h2 : Reader.Adv b1 b2 o2) : Reader.Adv b b2 (o1 ++ o2) := by
  refine ⟨h2.size_eq.trans h1.size_eq, ?_, ?_, fun h => h2.eof_mono (h1.eof_mono h),
    fun h => h2.nonempty (h1.nonempty h), fun h => h2.bounded (h1.bounded h)⟩
  · rw [List.append_assoc, h2.rest_eq, h1.rest_eq]
  · have := h1.count
    have := h2.count
    rw [List.length_append]
    omega

/-- One call of the underlying reader from `fill`, as a step of the reader. -/
theorem Reader.Adv_read {b : Reader} {d : List Byte} {e : Option IOError}
    {l1 : LimitedReader} (h : b.rd.Read (b.size - b.buf.length) = (d, e, l1))
    (err1 : Option IOError) :
    Reader.Adv b { size := b.size, buf := b.buf ++ d, rd := l1, err := err1 } [] := by
  obtain ⟨h1, h2, h3, h4, h5, -, -⟩ := LimitedReader.limitedRead_spec h
  refine ⟨rfl, ?_, ?_, h4, h5, ?_⟩
  · show [] ++ ((b.buf ++ d) ++ l1.R.writes.flatten) = b.buf ++ b.rd.R.writes.flatten
    rw [List.nil_append, List.append_assoc, h1]
  · show l1.N + ([] : List Byte).length + (b.buf ++ d).length = b.rd.N + b.buf.length
    rw [List.length_append, List.length_nil]
    omega
  · intro hb
    show (b.buf ++ d).length ≤ b.size
    rw [List.length_append]
    omega

theorem Reader.fillLoop_spec (i : Nat) (b : Reader) (hlt : b.buf.length < b.size) :
    Reader.Adv b (b.fillLoop i) [] ∧ (∃ d, (b.fillLoop i).buf = b.buf ++ d) ∧
    (((b.fillLoop i).err = b.err ∧ b.buf.length < (b.fillLoop i).buf.length) ∨
      ((b.fillLoop i).buf = b.buf ∧ ∃ x, (b.fillLoop i).err = some x ∧
        x ≠ IOError.ErrBufferFull ∧
        (NonEmptyWrites b.rd.R.writes → 0 < i →
          x = IOError.EOF ∧ ((b.fillLoop i).rd.N = 0 ∨
            ((b.fillLoop i).rd.R.writes = [] ∧ (b.fillLoop i).rd.R.eofSeen = true))))) := by
  induction i generalizing b with
  | zero =>
    refine ⟨⟨rfl, rfl, by simp [Reader.fillLoop], fun h => h, fun h => h, fun h => h⟩,
      ⟨[], by simp [Reader.fillLoop]⟩,
      Or.inr ⟨rfl, IOError.ErrNoProgress, rfl, by decide, fun _ h => absurd h (by omega)⟩⟩
  | succ i ih =>
    rcases hr : b.rd.Read (b.size - b.buf.length) with ⟨d, e, l1⟩
    obtain ⟨h1, h2, h3, h4, h5, h6, h7⟩ := LimitedReader.limitedRead_spec hr
    cases e with
    | some x =>
      have hb : b.fillLoop (i + 1) =
          { size := b.size, buf := b.buf ++ d, rd := l1, err := some x } := by
        simp [Reader.fillLoop, hr]
      obtain ⟨hx, hd, hN⟩ := h6 x rfl
      rw [hb]
      refine ⟨Reader.Adv_read hr _, ⟨d, rfl⟩,
        Or.inr ⟨by simp [hd], x, rfl, by rw [hx]; decide, fun _ _ => ⟨hx, hN⟩⟩⟩
    | none =>
      by_cases hpos : 0 < d.length
      · have hb : b.fillLoop (i + 1) =
            { size := b.size, buf := b.buf ++ d, rd := l1, err := b.err } := by
          simp [Reader.fillLoop, hr, hpos]
        rw [hb]
        refine ⟨Reader.Adv_read hr _, ⟨d, rfl⟩, Or.inl ⟨rfl, ?_⟩⟩
        show b.buf.length < (b.buf ++ d).length
        rw [List.length_append]
        omega
      · have hd : d = [] := List.eq_nil_of_length_eq_zero (by omega)
        have hb : b.fillLoop (i + 1) =
            Reader.fillLoop i { size := b.size, buf := b.buf ++ d, rd := l1, err := b.err } := by
          simp [Reader.fillLoop, hr, hpos]
        have hstep := Reader.Adv_read hr b.err
        obtain ⟨ha, ⟨d1, hd1⟩, hcase⟩ :=
          ih { size := b.size, buf := b.buf ++ d, rd := l1, err := b.err }
            (by simpa [hd] using hlt)
        rw [hb]
        refine ⟨by simpa using hstep.trans ha, ⟨d1, by simpa [hd] using hd1⟩, ?_⟩
        rcases hcase with ⟨he, hgrow⟩ | ⟨hbuf, x, hx, hxne, _⟩
        · exact Or.inl ⟨he, by simpa [hd] using hgrow⟩
        · refine Or.inr ⟨by simpa [hd] using hbuf, x, hx, hxne, fun hne _ => ?_⟩
          exact absurd hd (h7 hne (by omega) rfl)

theorem Reader.fill_spec (b : Reader) (hlt : b.buf.length < b.size) :
    Reader.Adv b b.fill [] ∧ (∃ d, b.fill.buf = b.buf ++ d) ∧
    ((b.fill.err = b.err ∧ b.buf.length < b.fill.buf.length) ∨
      (b.fill.buf = b.buf ∧ ∃ x, b.fill.err = some x ∧ x ≠ IOError.ErrBufferFull ∧
        (NonEmptyWrites b.rd.R.writes →
          x = IOError.EOF ∧ (b.fill.rd.N = 0 ∨
            (b.fill.rd.R.writes = [] ∧ b.fill.rd.R.eofSeen = true))))) := by
  obtain ⟨h1, hd, h2⟩ := Reader.fillLoop_spec maxConsecutiveEmptyReads b hlt
  refine ⟨h1, hd, ?_⟩
  rcases h2 with h | ⟨hb, x, hx, hxne, hh⟩
  · exact Or.inl h
  · exact Or.inr ⟨hb, x, hx, hxne, fun hne => hh hne (by decide)⟩

theorem indexByte_none {l : List Byte} {c : Byte} (h : indexByte l c = none) : c ∉ l := by
  induction l with
  | nil => simp
  | cons x xs ih =>
    unfold indexByte at h
    by_cases hx : x = c
    · simp [hx] at h
    · simp only [if_neg hx, Option.map_eq_none'] at h
      intro hmem
      rcases List.mem_cons.1 hmem with rfl | hmem
      · exact hx rfl
      · exact ih h hmem

theorem indexByte_some {l : List Byte} {c : Byte} {i : Nat} (h : indexByte l c = some i) :
    ∃ pre post, l = pre ++ c :: post ∧ pre.length = i ∧ c ∉ pre := by
  induction l generalizing i with
  | nil => simp [indexByte] at h
  | cons x xs ih =>
    unfold indexByte at h
    by_cases hx : x = c
    · simp only [if_pos hx, Option.some.injEq] at h
      exact ⟨[], xs, by simp [hx], by simpa using h, by simp⟩
    · simp only [if_neg hx, Option.map_eq_some'] at h
      obtain ⟨j, hj, rfl⟩ := h
      obtain ⟨pre, post, hl, hlen, hnot⟩ := ih hj
      refine ⟨x :: pre, post, by simp [hl], by simp [hlen], ?_⟩
      intro hmem
      rcases List.mem_cons.1 hmem with rfl | hmem
      · exact hx rfl
      · exact hnot hmem

theorem take_drop_split (A post : List Byte) (c : Byte) :
    (A ++ c :: post).take (A.length + 1) = A ++ [c] ∧
    (A ++ c :: post).drop (A.length + 1) = post := by
  induction A with
  | nil => simp
  | cons a A ih => simpa using ih

theorem Reader.readSliceLoop_spec (delim : Byte) (fuel : Nat) :
    ∀ (s : Nat) (b : Reader) (frag : List Byte) (e : Option IOError) (b1 : Reader),
    b.buf.length ≤ b.size → delim ∉ b.buf.take s → b.err ≠ some IOError.ErrBufferFull →
    Reader.readSliceLoop delim fuel s b = some (frag, e, b1) →
    Reader.Adv b b1 frag ∧ (b.err = none → b1.err = none) ∧
    (e = none → ∃ pre, frag = pre ++ [delim] ∧ delim ∉ pre) ∧
    (∀ x, e = some x → delim ∉ frag ∧ b1.buf = [] ∧ b1.err = none ∧
      (x = IOError.ErrBufferFull → frag.length = b.size) ∧
      (NonEmptyWrites b.rd.R.writes → b.ErrOK → x ≠ IOError.ErrBufferFull →
        x = IOError.EOF ∧
          (b1.rd.N = 0 ∨ (b1.rd.R.writes = [] ∧ b1.rd.R.eofSeen = true)))) := by
  induction fuel with
  | zero =>
    intro s b frag e b1 _ _ _ h
    simp [Reader.readSliceLoop] at h
  | succ fuel ih =>
    intro s b frag e b1 hb hs hnf h
    rw [Reader.readSliceLoop] at h
    cases hidx : indexByte (b.buf.drop s) delim with
    | some i =>
      simp only [hidx, Option.some.injEq, Prod.mk.injEq] at h
      obtain ⟨hfrag, he, hb1⟩ := h
      obtain ⟨pre, post, hl, hlen, hnot⟩ := indexByte_some hidx
      have hdl : (b.buf.drop s).length = pre.length + (post.length + 1) := by
        rw [hl]; simp
      rw [List.length_drop] at hdl
      have hslen : (b.buf.take s).length = s := by
        rw [List.length_take]; omega
      have hbuf : b.buf = (b.buf.take s ++ pre) ++ delim :: post := by
        rw [List.append_assoc, ← hl, List.take_append_drop]
      have hAlen : (b.buf.take s ++ pre).length = s + i := by
        rw [List.length_append, hslen, hlen]
      obtain ⟨ht, hd⟩ := take_drop_split (b.buf.take s ++ pre) post delim
      rw [← hbuf, hAlen] at ht hd
      subst he
      rw [ht] at hfrag
      rw [hd] at hb1
      subst hfrag
      subst hb1
      refine ⟨⟨rfl, ?_, ?_, fun h => h, fun h => h, ?_⟩, fun h => h, ?_, ?_⟩
      · show (b.buf.take s ++ pre ++ [delim]) ++ (post ++ b.rd.R.writes.flatten) =
          b.buf ++ b.rd.R.writes.flatten
        conv_rhs => rw [hbuf]
        simp
      · show b.rd.N + (b.buf.take s ++ pre ++ [delim]).length + post.length =
          b.rd.N + b.buf.length
        conv_rhs => rw [hbuf]
        simp only [List.length_append, List.length_cons, List.length_nil]
        omega
      · intro _
        show post.length ≤ b.size
        have : b.buf.length = (b.buf.take s ++ pre).length + (post.length + 1) := by
          conv_lhs => rw [hbuf]
          rw [List.length_append, List.length_cons]
        omega
      · intro _
        refine ⟨b.buf.take s ++ pre, rfl, ?_⟩
        intro hmem
        rcases List.mem_append.1 hmem with h1 | h1
        · exact hs h1
        · exact hnot h1
      · intro x hx
        exact absurd hx (by simp)
    | none =>
      have hnotin : delim ∉ b.buf := by
        intro hmem
        rw [← List.take_append_drop s b.buf] at hmem
        rcases List.mem_append.1 hmem with h1 | h1
        · exact hs h1
        · exact indexByte_none hidx h1
      simp only [hidx] at h
      cases herr : b.err with
      | some x =>
        simp only [herr, Option.some.injEq, Prod.mk.injEq] at h
        obtain ⟨rfl, rfl, rfl⟩ := h
        refine ⟨⟨rfl, by simp [Reader.rest], by simp, fun h => h, fun h => h,
          fun _ => by simp⟩, fun _ => rfl, fun h => absurd h (by simp), ?_⟩
        intro y hy
        simp only [Option.some.injEq] at hy
        subst hy
        refine ⟨hnotin, rfl, rfl, fun hx => absurd (by rw [herr, hx]) hnf, ?_⟩
        intro _ hok _
        exact hok x herr
      | none =>
        simp only [herr] at h
        by_cases hfull : b.size ≤ b.buf.length
        · simp only [if_pos hfull, Option.some.injEq, Prod.mk.injEq] at h
          obtain ⟨rfl, rfl, rfl⟩ := h
          refine ⟨⟨rfl, by simp [Reader.rest], by simp, fun h => h, fun h => h,
            fun _ => by simp⟩, fun h => h, fun h => absurd h (by simp), ?_⟩
          intro y hy
          simp only [Option.some.injEq] at hy
          subst hy
          exact ⟨hnotin, rfl, rfl, fun _ => by omega, fun _ _ h => absurd rfl h⟩
        · simp only [if_neg hfull] at h
          obtain ⟨hadv, ⟨d, hd⟩, hcase⟩ := Reader.fill_spec b (by omega)
          have hs1 : delim ∉ b.fill.buf.take b.buf.length := by
            rw [hd, List.take_left]
            exact hnotin
          have hb1 : b.fill.buf.length ≤ b.fill.size := hadv.bounded hb
          have hnf1 : b.fill.err ≠ some IOError.ErrBufferFull := by
            rcases hcase with ⟨he, _⟩ | ⟨_, x, hx, hxne, _⟩
            · rw [he, herr]; simp
            · rw [hx]
              intro hc
              exact hxne (Option.some.inj hc)
          obtain ⟨a1, a2, a3, a4⟩ := ih b.buf.length b.fill frag e b1 hb1 hs1 hnf1 h
          have a1t := hadv.trans a1
          rw [List.nil_append] at a1t
          refine ⟨a1t, ?_, a3, ?_⟩
          · intro _
            rcases e with _ | x
            · rcases hcase with ⟨he, _⟩ | ⟨hbuf, x, hx, _⟩
              · exact a2 (by rw [he, herr])
              · exfalso
                obtain ⟨pre, hp, -⟩ := a3 rfl
                cases fuel with
                | zero => simp [Reader.readSliceLoop] at h
                | succ k =>
                  rw [Reader.readSliceLoop, hbuf] at h
                  rw [List.drop_length] at h
                  simp [indexByte, hx] at h
            · exact (a4 x rfl).2.2.1
          · intro x hx
            obtain ⟨c1, c2, c3, c4, c5⟩ := a4 x hx
            refine ⟨c1, c2, c3, fun hxx => by rw [c4 hxx, hadv.size_eq], ?_⟩
            intro hne _ hxne
            refine c5 (hadv.nonempty hne) ?_ hxne
            intro y hy
            rcases hcase with ⟨he, _⟩ | ⟨_, z, hz, _, hzz⟩
            · rw [he, herr] at hy
              exact absurd hy (by simp)
            · rw [hz] at hy
              simp only [Option.some.injEq] at hy
              subst hy
              exact hzz hne

theorem Reader.readSliceLoop_pending (delim : Byte) (fuel s : Nat) (b : Reader)
    (x : IOError) (hx : b.err = some x) :
    (Reader.readSliceLoop delim (fuel + 1) s b).isSome = true := by
  rw [Reader.readSliceLoop]
  cases hidx : indexByte (b.buf.drop s) delim with
  | some i => simp
  | none => simp [hx]

theorem Reader.readSliceLoop_total (delim : Byte) (fuel : Nat) :
    ∀ (s : Nat) (b : Reader), b.size - b.buf.length + 2 ≤ fuel →
      (Reader.readSliceLoop delim fuel s b).isSome = true := by
  induction fuel with
  | zero =>
    intro s b h
    omega
  | succ fuel ih =>
    intro s b h
    cases herr : b.err with
    | some x => exact Reader.readSliceLoop_pending delim fuel s b x herr
    | none =>
      rw [Reader.readSliceLoop]
      cases hidx : indexByte (b.buf.drop s) delim with
      | some i => simp
      | none =>
        simp only [herr]
        by_cases hfull : b.size ≤ b.buf.length
        · simp [if_pos hfull]
        · simp only [if_neg hfull]
          obtain ⟨hadv, -, hcase⟩ := Reader.fill_spec b (by omega)
          rcases hcase with ⟨_, hgrow⟩ | ⟨_, x, hx, _⟩
          · exact ih _ _ (by rw [hadv.size_eq]; omega)
          · obtain ⟨k, rfl⟩ : ∃ k, fuel = k + 1 := ⟨fuel - 1, by omega⟩
            exact Reader.readSliceLoop_pending delim k _ _ x hx

theorem Reader.collectFragments_spec (inner : Nat) (delim : Byte) (fuel : Nat) :
    ∀ (full : List Byte) (b : Reader) (ln : List Byte) (e : Option IOError) (b1 : Reader),
    b.buf.length ≤ b.size → b.err = none → delim ∉ full →
    Reader.collectFragments inner delim fuel full b = some (ln, e, b1) →
    ∃ out, ln = full ++ out ∧ Reader.Adv b b1 out ∧ b1.err = none ∧
      (e = none → ∃ pre, ln = pre ++ [delim] ∧ delim ∉ pre) ∧
      (∀ x, e = some x → delim ∉ ln ∧ b1.buf = [] ∧
        (NonEmptyWrites b.rd.R.writes → x = IOError.EOF ∧
          (b1.rd.N = 0 ∨ (b1.rd.R.writes = [] ∧ b1.rd.R.eofSeen = true)))) := by
  induction fuel with
  | zero =>
    intro full b ln e b1 _ _ _ h
    simp [Reader.collectFragments] at h
  | succ fuel ih =>
    intro full b ln e b1 hb herr hfull h
    rw [Reader.collectFragments] at h
    cases hrs : b.ReadSlice inner delim with
    | none => simp [hrs] at h
    | some r =>
      obtain ⟨frag, e1, b2⟩ := r
      have hok : b.ErrOK := by
        intro y hy
        rw [herr] at hy
        exact absurd hy (by simp)
      obtain ⟨a1, a2, a3, a4⟩ := Reader.readSliceLoop_spec delim inner 0 b frag e1 b2 hb
        (by simp) (by rw [herr]; simp) hrs
      cases e1 with
      | none =>
        simp only [hrs, Option.some.injEq, Prod.mk.injEq] at h
        obtain ⟨rfl, rfl, rfl⟩ := h
        obtain ⟨pre, hp, hnot⟩ := a3 rfl
        refine ⟨frag, rfl, a1, a2 herr, fun _ => ⟨full ++ pre, ?_, ?_⟩,
          fun x hx => absurd hx (by simp)⟩
        · rw [hp, List.append_assoc]
        · intro hmem
          rcases List.mem_append.1 hmem with h1 | h1
          · exact hfull h1
          · exact hnot h1
      | some x =>
        obtain ⟨c1, c2, c3, c4, c5⟩ := a4 x rfl
        have hfull2 : delim ∉ full ++ frag := by
          intro hmem
          rcases List.mem_append.1 hmem with h1 | h1
          · exact hfull h1
          · exact c1 h1
        simp only [hrs] at h
        by_cases hx : x = IOError.ErrBufferFull
        · simp only [if_pos hx] at h
          obtain ⟨out, d1, d2, d3, d4, d5⟩ :=
            ih (full ++ frag) b2 ln e b1 (a1.bounded hb) c3 hfull2 h
          refine ⟨frag ++ out, by rw [d1, List.append_assoc], a1.trans d2, d3, d4, ?_⟩
          intro y hy
          obtain ⟨f1, f2, f3⟩ := d5 y hy
          exact ⟨f1, f2, fun hne => f3 (a1.nonempty hne)⟩
        · simp only [if_neg hx, Option.some.injEq, Prod.mk.injEq] at h
          obtain ⟨rfl, rfl, rfl⟩ := h
          refine ⟨frag, rfl, a1, c3, fun h => absurd h (by simp), ?_⟩
          intro y hy
          simp only [Option.some.injEq] at hy
          subst hy
          exact ⟨hfull2, c2, fun hne => c5 hne hok hx⟩

theorem Reader.collectFragments_total (inner : Nat) (delim : Byte) (fuel : Nat) :
    ∀ (full : List Byte) (b : Reader),
    0 < b.size → b.buf.length ≤ b.size → b.err = none → b.size + 2 ≤ inner →
    b.rd.N + b.buf.length + 1 ≤ fuel →
    (Reader.collectFragments inner delim fuel full b).isSome = true := by
  induction fuel with
  | zero =>
    intro full b _ _ _ _ h
    omega
  | succ fuel ih =>
    intro full b hsz hb herr hin hfuel
    rw [Reader.collectFragments]
    have htot := Reader.readSliceLoop_total delim inner 0 b (by omega)
    cases hrs : b.ReadSlice inner delim with
    | none =>
      rw [Reader.ReadSlice] at hrs
      rw [hrs] at htot
      simp at htot
    | some r =>
      obtain ⟨frag, e1, b2⟩ := r
      obtain ⟨a1, a2, a3, a4⟩ := Reader.readSliceLoop_spec delim inner 0 b frag e1 b2 hb
        (by simp) (by rw [herr]; simp) hrs
      cases e1 with
      | none => simp
      | some x =>
        obtain ⟨c1, c2, c3, c4, c5⟩ := a4 x rfl
        by_cases hx : x = IOError.ErrBufferFull
        · simp only [if_pos hx]
          have hcount := a1.count
          have hlen := c4 hx
          have hsize := a1.size_eq
          rw [c2] at hcount
          simp only [List.length_nil] at hcount
          refine ih _ b2 (by omega) (a1.bounded hb) c3 (by omega) ?_
          rw [c2]
          simp only [List.length_nil]
          omega
        · simp [if_neg hx]

theorem splitLines_eq_nil {l : List Byte} (h : splitLines l = []) : l = [] := by
  cases l with
  | nil => rfl
  | cons x xs =>
    unfold splitLines at h
    by_cases hx : x = newline
    · simp [hx] at h
    · simp only [if_neg hx] at h
      split at h <;> simp at h

theorem splitLines_line {pre : List Byte} (rest : List Byte) (h : newline ∉ pre) :
    splitLines (pre ++ newline :: rest) = (pre ++ [newline]) :: splitLines rest := by
  induction pre with
  | nil => simp [splitLines]
  | cons x pre ih =>
    have hx : x ≠ newline := fun hc => h (by simp [hc])
    have hpre : newline ∉ pre := fun hc => h (List.mem_cons_of_mem _ hc)
    rw [List.cons_append, splitLines, if_neg hx, ih hpre]
    simp

theorem splitLines_last {l : List Byte} (h : newline ∉ l) (hne : l ≠ []) :
    splitLines l = [l] := by
  induction l with
  | nil => exact absurd rfl hne
  | cons x xs ih =>
    have hx : x ≠ newline := fun hc => h (by simp [hc])
    have hxs : newline ∉ xs := fun hc => h (List.mem_cons_of_mem _ hc)
    rw [splitLines, if_neg hx]
    cases xs with
    | nil => simp [splitLines]
    | cons y ys => rw [ih hxs (by simp)]

theorem splitLines_first_longer {ln : List Byte} (r : List Byte) (h : newline ∉ ln)
    (hr : r ≠ []) :
    ∃ l ls, splitLines (ln ++ r) = l :: ls ∧ ln.length < l.length := by
  induction ln with
  | nil =>
    cases hsl : splitLines r with
    | nil => exact absurd (splitLines_eq_nil hsl) hr
    | cons l ls =>
      refine ⟨l, ls, by simpa using hsl, ?_⟩
      cases l with
      | nil =>
        exfalso
        cases r with
        | nil => exact hr rfl
        | cons x xs =>
          unfold splitLines at hsl
          by_cases hx : x = newline
          · simp [hx] at hsl
          · simp only [if_neg hx] at hsl
            split at hsl <;> simp at hsl
      | cons a l => simp
  | cons x ln ih =>
    have hx : x ≠ newline := fun hc => h (by simp [hc])
    have hln : newline ∉ ln := fun hc => h (List.mem_cons_of_mem _ hc)
    obtain ⟨l, ls, hl, hlen⟩ := ih hln
    refine ⟨x :: l, ls, ?_, by simpa using hlen⟩
    rw [List.cons_append, splitLines, if_neg hx, hl]

theorem drainLoop_succ (cap inner fuel : Nat) (b : Reader) (log : List (List Byte)) :
    drainLoop cap inner (fuel + 1) b log =
      match (b.setN cap).ReadString inner newline with
      | none => none
      | some (ln, err, out) =>
        match err with
        | some e =>
          if out.rd.N = 0 ∧ e = IOError.EOF then
            drainLoop cap inner fuel out (if 0 < ln.length then log ++ [ln] else log)
          else some (if 0 < ln.length then log ++ [ln] else log, e, out)
        | none => drainLoop cap inner fuel out (if 0 < ln.length then log ++ [ln] else log) := by
  rfl

/-- What one `ReadString` of the drain does, after `limitedLines.N` was set to `cap`. -/
theorem Reader.ReadString_spec (cap inner : Nat) (b : Reader) (ln : List Byte)
    (e : Option IOError) (b1 : Reader) (hb : b.buf.length ≤ b.size) (herr : b.err = none)
    (h : (b.setN cap).ReadString inner newline = some (ln, e, b1)) :
    b1.size = b.size ∧ ln ++ b1.rest = b.rest ∧
    b1.rd.N + ln.length + b1.buf.length = cap + b.buf.length ∧
    b1.buf.length ≤ b1.size ∧ b1.err = none ∧
    (NonEmptyWrites b.rd.R.writes → NonEmptyWrites b1.rd.R.writes) ∧
    (e = none → ∃ pre, ln = pre ++ [newline] ∧ newline ∉ pre) ∧
    (∀ x, e = some x → newline ∉ ln ∧ b1.buf = [] ∧
      (NonEmptyWrites b.rd.R.writes → x = IOError.EOF ∧
        (b1.rd.N = 0 ∨ (b1.rd.R.writes = [] ∧ b1.rd.R.eofSeen = true)))) := by
  obtain ⟨out, h1, h2, h3, h4, h5⟩ :=
    Reader.collectFragments_spec inner newline inner [] (b.setN cap) ln e b1 hb herr
      (by simp) h
  rw [List.nil_append] at h1
  subst h1
  exact ⟨h2.size_eq, h2.rest_eq, h2.count, h2.bounded hb, h3, h2.nonempty, h4, h5⟩

theorem Reader.ReadString_total (cap inner : Nat) (b : Reader) (hsz : 0 < b.size)
    (hb : b.buf.length ≤ b.size) (herr : b.err = none) (hin : cap + b.size + 2 ≤ inner) :
    ((b.setN cap).ReadString inner newline).isSome = true := by
  refine Reader.collectFragments_total inner newline inner [] (b.setN cap) hsz hb herr ?_ ?_
  · show b.size + 2 ≤ inner
    omega
  · show cap + b.buf.length + 1 ≤ inner
    omega

theorem drainLoop_total (cap inner fuel : Nat) :
    ∀ (b : Reader) (log : List (List Byte)),
    0 < cap → 0 < b.size → b.buf.length ≤ b.size → b.err = none →
    cap + b.size + 2 ≤ inner → b.rest.length + 1 ≤ fuel →
    (drainLoop cap inner fuel b log).isSome = true := by
  induction fuel with
  | zero =>
    intro b log _ _ _ _ _ h
    omega
  | succ fuel ih =>
    intro b log hcap hsz hb herr hin hfuel
    rw [drainLoop_succ]
    have htot := Reader.ReadString_total cap inner b hsz hb herr hin
    cases hrs : (b.setN cap).ReadString inner newline with
    | none => simp [hrs] at htot
    | some r =>
      obtain ⟨ln, e, b1⟩ := r
      obtain ⟨a1, a2, a3, a4, a5, -, a7, a8⟩ :=
        Reader.ReadString_spec cap inner b ln e b1 hb herr hrs
      have hlen : ln.length + b1.rest.length = b.rest.length := by
        rw [← a2, List.length_append]
      cases e with
      | none =>
        obtain ⟨pre, hp, -⟩ := a7 rfl
        have : 0 < ln.length := by rw [hp]; simp
        exact ih b1 _ hcap (by omega) a4 a5 (by omega) (by omega)
      | some x =>
        by_cases hc : b1.rd.N = 0 ∧ x = IOError.EOF
        · simp only [if_pos hc]
          obtain ⟨c1, c2, -⟩ := a8 x rfl
          rw [c2, hc.1] at a3
          simp only [List.length_nil] at a3
          exact ih b1 _ hcap (by omega) a4 a5 (by omega) (by omega)
        · simp [if_neg hc]

theorem logged_chunk (ln : List Byte) (log : List (List Byte)) :
    ∃ c0 : List (List Byte), (if 0 < ln.length then log ++ [ln] else log) = log ++ c0 ∧
      c0.flatten = ln ∧ (∀ c ∈ c0, c ≠ []) ∧ (ln ≠ [] → c0 = [ln]) ∧ (ln = [] → c0 = []) := by
  by_cases h : 0 < ln.length
  · refine ⟨[ln], by rw [if_pos h], by simp, ?_, fun _ => rfl, ?_⟩
    · intro c hc
      rw [List.mem_singleton] at hc
      subst hc
      exact List.ne_nil_of_length_pos h
    · intro h0
      rw [h0] at h
      simp at h
  · have h0 : ln = [] := List.eq_nil_of_length_eq_zero (by omega)
    exact ⟨[], by rw [if_neg h]; simp, by simp [h0], by simp, fun hne => absurd h0 hne,
      fun _ => rfl⟩

theorem drainLoop_spec (cap inner fuel : Nat) :
    ∀ (b : Reader) (log log1 : List (List Byte)) (x : IOError) (b1 : Reader),
    0 < cap → b.buf.length ≤ b.size → b.err = none → NonEmptyWrites b.rd.R.writes →
    drainLoop cap inner fuel b log = some (log1, x, b1) →
    ∃ chunks, log1 = log ++ chunks ∧ chunks.flatten = b.rest ∧ (∀ c ∈ chunks, c ≠ []) ∧
      x = IOError.EOF ∧ b1.rd.N ≠ 0 ∧ b1.rd.R.writes = [] ∧ b1.rd.R.eofSeen = true ∧
      b1.buf = [] := by
  induction fuel with
  | zero =>
    intro b log log1 x b1 _ _ _ _ h
    simp [drainLoop] at h
  | succ fuel ih =>
    intro b log log1 x b1 hcap hb herr hne h
    rw [drainLoop_succ] at h
    cases hrs : (b.setN cap).ReadString inner newline with
    | none => simp [hrs] at h
    | some r =>
      obtain ⟨ln, e, b2⟩ := r
      obtain ⟨a1, a2, a3, a4, a5, a6, a7, a8⟩ :=
        Reader.ReadString_spec cap inner b ln e b2 hb herr hrs
      obtain ⟨c0, hc0, hflat, hnonempty, -, -⟩ := logged_chunk ln log
      simp only [hrs] at h
      rw [hc0] at h
      have hcont : ∀ (h : drainLoop cap inner fuel b2 (log ++ c0) = some (log1, x, b1)),
          ∃ chunks, log1 = log ++ chunks ∧ chunks.flatten = b.rest ∧
            (∀ c ∈ chunks, c ≠ []) ∧ x = IOError.EOF ∧ b1.rd.N ≠ 0 ∧
            b1.rd.R.writes = [] ∧ b1.rd.R.eofSeen = true ∧ b1.buf = [] := by
        intro h
        obtain ⟨chunks, d1, d2, d3, d4⟩ := ih b2 _ log1 x b1 hcap a4 a5 (a6 hne) h
        refine ⟨c0 ++ chunks, by rw [d1, List.append_assoc], ?_, ?_, d4⟩
        · rw [List.flatten_append, hflat, d2, a2]
        · intro c hc
          rcases List.mem_append.1 hc with h1 | h1
          · exact hnonempty c h1
          · exact d3 c h1
      cases e with
      | none => exact hcont h
      | some y =>
        by_cases hc : b2.rd.N = 0 ∧ y = IOError.EOF
        · simp only [if_pos hc] at h
          exact hcont h
        · simp only [if_neg hc, Option.some.injEq, Prod.mk.injEq] at h
          obtain ⟨rfl, rfl, rfl⟩ := h
          obtain ⟨-, c2, c3⟩ := a8 y rfl
          obtain ⟨hy, hN⟩ := c3 hne
          have hN0 : b2.rd.N ≠ 0 := fun h0 => hc ⟨h0, hy⟩
          rcases hN with h0 | ⟨hw, heof⟩
          · exact absurd h0 hN0
          · refine ⟨c0, rfl, ?_, hnonempty, hy, hN0, hw, heof, c2⟩
            rw [hflat, ← a2]
            simp [Reader.rest, c2, hw]

theorem drainLoop_lines (cap inner fuel : Nat) :
    ∀ (b : Reader) (log log1 : List (List Byte)) (x : IOError) (b1 : Reader),
    0 < cap → b.buf.length ≤ b.size → b.err = none → NonEmptyWrites b.rd.R.writes →
    (∀ l ∈ splitLines b.rest, l.length ≤ cap) →
    drainLoop cap inner fuel b log = some (log1, x, b1) →
    log1 = log ++ splitLines b.rest := by
  induction fuel with
  | zero =>
    intro b log log1 x b1 _ _ _ _ _ h
    simp [drainLoop] at h
  | succ fuel ih =>
    intro b log log1 x b1 hcap hb herr hne hlines h
    rw [drainLoop_succ] at h
    cases hrs : (b.setN cap).ReadString inner newline with
    | none => simp [hrs] at h
    | some r =>
      obtain ⟨ln, e, b2⟩ := r
      obtain ⟨a1, a2, a3, a4, a5, a6, a7, a8⟩ :=
        Reader.ReadString_spec cap inner b ln e b2 hb herr hrs
      obtain ⟨c0, hc0, -, -, hc1, hc2⟩ := logged_chunk ln log
      simp only [hrs] at h
      rw [hc0] at h
      cases e with
      | none =>
        obtain ⟨pre, hp, hnot⟩ := a7 rfl
        have hsplit : splitLines b.rest = ln :: splitLines b2.rest := by
          rw [← a2, hp, List.append_assoc, List.singleton_append]
          exact splitLines_line _ hnot
        have hln : ln ≠ [] := by rw [hp]; simp
        rw [hc1 hln] at h
        have := ih b2 _ log1 x b1 hcap a4 a5 (a6 hne)
          (fun l hl => hlines l (by rw [hsplit]; exact List.mem_cons_of_mem _ hl)) h
        rw [this, hsplit]
        simp
      | some y =>
        obtain ⟨c1, c2, c3⟩ := a8 y rfl
        obtain ⟨hy, hN⟩ := c3 hne
        by_cases hc : b2.rd.N = 0 ∧ y = IOError.EOF
        · simp only [if_pos hc] at h
          rw [c2, hc.1] at a3
          simp only [List.length_nil] at a3
          have hln : ln ≠ [] := by
            intro h0
            rw [h0] at a3
            simp at a3
            omega
          have hrest : b2.rest = [] := by
            by_contra hr
            obtain ⟨l, ls, hl, hlen⟩ := splitLines_first_longer b2.rest c1 hr
            rw [a2] at hl
            have := hlines l (by rw [hl]; exact List.mem_cons_self _ _)
            omega
          have hsplit : splitLines b.rest = [ln] := by
            rw [← a2, hrest, List.append_nil]
            exact splitLines_last c1 hln
          rw [hc1 hln] at h
          have := ih b2 _ log1 x b1 hcap a4 a5 (a6 hne)
            (by rw [hrest]; simp [splitLines]) h
          rw [this, hsplit, hrest]
          simp [splitLines]
        · simp only [if_neg hc, Option.some.injEq, Prod.mk.injEq] at h
          obtain ⟨rfl, rfl, rfl⟩ := h
          have hN0 : b2.rd.N ≠ 0 := fun h0 => hc ⟨h0, hy⟩
          rcases hN with h0 | ⟨hw, heof⟩
          · exact absurd h0 hN0
          · have hrest : b2.rest = [] := by simp [Reader.rest, c2, hw]
            rw [hrest, List.append_nil] at a2
            rw [← a2]
            by_cases hln : ln = []
            · rw [hc2 hln, hln]
              simp [splitLines]
            · rw [hc1 hln, splitLines_last c1 hln]

theorem toInt64_le (n : Nat) : toInt64 n ≤ (n : Int) := by
  unfold toInt64
  have h := Nat.mod_le n (2 ^ 64)
  split <;> omega

/-- The invariant of admission control: the semaphore exists, holds no more tokens
than `maxConcurrent`, and every token is held by a live worker or by the acceptor on
its way from `Acquire` to the launch of the next worker. -/
theorem Sys.step_invariant (M : Nat) (hM : 0 < M) (s s1 : Sys) (ev : Event)
    (hstep : Sys.step M s ev = some s1)
    (hinv : ∃ cur, s.sem = some cur ∧ cur ≤ M ∧
      cur = s.workers + (if s.acceptor = AcceptorPC.accept then 1 else 0)) :
    (∃ cur, s1.sem = some cur ∧ cur ≤ M ∧
      cur = s1.workers + (if s1.acceptor = AcceptorPC.accept then 1 else 0)) ∧
    s1.exit ≠ some 2 := by
  obtain ⟨cur, hsem, hle, hcur⟩ := hinv
  have hM1 : hasConcurrencyControl M = true := by simp [hasConcurrencyControl, hM]
  have hsz := toInt64_le M
  have hexn : s.exit = none := by
    cases h : s.exit with
    | none => rfl
    | some v => simp [Sys.step, h] at hstep
  unfold Sys.step at hstep
  simp only [hexn, Option.isSome_none, Bool.false_eq_true, if_false] at hstep
  cases ev with
  | acquireOk =>
    cases hacc : s.acceptor <;> simp only [hacc, hsem, semSize] at hstep
    · split at hstep
      · simp only [Option.some.injEq] at hstep
        subst hstep
        simp only [hacc] at hcur
        refine ⟨⟨cur + 1, rfl, by omega, ?_⟩, by simp [hexn]⟩
        show cur + 1 = s.workers + (if AcceptorPC.accept = AcceptorPC.accept then 1 else 0)
        simp only [if_true]
        simp at hcur
        omega
      · simp at hstep
    · simp at hstep
    · simp at hstep
  | acquireCancelled =>
    simp only [] at hstep
    split at hstep
    · rename_i hc
      simp only [Option.some.injEq] at hstep
      subst hstep
      simp only [hc.1] at hcur
      refine ⟨⟨cur, hsem, hle, ?_⟩, by simp [hexn]⟩
      show cur = s.workers + (if AcceptorPC.returned = AcceptorPC.accept then 1 else 0)
      simp at hcur ⊢
      omega
    · simp at hstep
  | acceptOk =>
    simp only [] at hstep
    split at hstep
    · rename_i hc
      simp only [Option.some.injEq] at hstep
      subst hstep
      simp only [hc.1, if_true] at hcur
      refine ⟨⟨cur, hsem, hle, ?_⟩, by simp [hexn]⟩
      show cur = s.workers + 1 + (if loopTop M = AcceptorPC.accept then 1 else 0)
      simp [loopTop, hM1]
      omega
    · simp at hstep
  | acceptErr =>
    simp only [] at hstep
    split at hstep
    · simp only [Option.some.injEq] at hstep
      subst hstep
      exact ⟨⟨cur, hsem, hle, hcur⟩, by simp⟩
    · simp at hstep
  | workerDone =>
    simp only [] at hstep
    by_cases hw : s.workers = 0
    · simp [hw] at hstep
    · have hc0 : cur ≠ 0 := by
        split at hcur <;> omega
      simp only [hw, hsem, hc0, if_false, Option.some.injEq] at hstep
      subst hstep
      refine ⟨⟨cur - 1, rfl, by omega, ?_⟩, by simp [hexn]⟩
      show cur - 1 = s.workers - 1 + (if s.acceptor = AcceptorPC.accept then 1 else 0)
      split at hcur <;> rename_i hacc <;> simp only [hacc, if_true, if_false] <;> omega
  | signal =>
    simp only [] at hstep
    split at hstep
    · simp only [Option.some.injEq] at hstep
      subst hstep
      exact ⟨⟨cur, hsem, hle, hcur⟩, by simp [hexn]⟩
    · simp at hstep
  | shutdown =>
    simp only [] at hstep
    split at hstep
    · simp only [Option.some.injEq] at hstep
      subst hstep
      exact ⟨⟨cur, hsem, hle, hcur⟩, by simp [hexn]⟩
    · simp at hstep
  | mainReturn =>
    simp only [] at hstep
    split at hstep
    · simp only [Option.some.injEq] at hstep
      subst hstep
      exact ⟨⟨cur, hsem, hle, hcur⟩, by simp⟩
    · simp at hstep

theorem Sys.run_invariant (M : Nat) (hM : 0 < M) (evs : List Event) :
    ∀ (s s1 : Sys), Sys.run M evs s = some s1 →
    (∃ cur, s.sem = some cur ∧ cur ≤ M ∧
      cur = s.workers + (if s.acceptor = AcceptorPC.accept then 1 else 0)) →
    s.exit ≠ some 2 →
    (∃ cur, s1.sem = some cur ∧ cur ≤ M ∧
      cur = s1.workers + (if s1.acceptor = AcceptorPC.accept then 1 else 0)) ∧
    s1.exit ≠ some 2 := by
  induction evs with
  | nil =>
    intro s s1 h hinv hex
    simp only [Sys.run, Option.some.injEq] at h
    subst h
    exact ⟨hinv, hex⟩
  | cons ev evs ih =>
    intro s s1 h hinv hex
    rw [Sys.run] at h
    cases hstep : Sys.step M s ev with
    | none => simp [hstep] at h
    | some s2 =>
      simp only [hstep] at h
      obtain ⟨h1, h2⟩ := Sys.step_invariant M hM s s2 ev hstep hinv
      exact ih s2 s1 h h1 h2

theorem Sys.step_invariant_zero (s s1 : Sys) (ev : Event)
    (hstep : Sys.step 0 s ev = some s1)
    (hinv : s.sem = none ∧ s.acceptor = AcceptorPC.accept) :
    s1.sem = none ∧ s1.acceptor = AcceptorPC.accept := by
  obtain ⟨hsem, hacc⟩ := hinv
  have hexn : s.exit = none := by
    cases h : s.exit with
    | none => rfl
    | some v => simp [Sys.step, h] at hstep
  unfold Sys.step at hstep
  simp only [hexn, Option.isSome_none, Bool.false_eq_true, if_false] at hstep
  cases ev <;> simp only [hacc, hsem] at hstep
  · simp at hstep
  · simp at hstep
  · split at hstep
    · simp only [Option.some.injEq] at hstep
      subst hstep
      exact ⟨rfl, by simp [loopTop, hasConcurrencyControl]⟩
    · simp at hstep
  · simp only [if_true, Option.some.injEq] at hstep
    subst hstep
    exact ⟨rfl, rfl⟩
  · split at hstep
    · simp at hstep
    · simp only [Option.some.injEq] at hstep
      subst hstep
      exact ⟨rfl, rfl⟩
  · split at hstep
    · simp only [Option.some.injEq] at hstep
      subst hstep
      exact ⟨rfl, rfl⟩
    · simp at hstep
  · split at hstep
    · simp only [Option.some.injEq] at hstep
      subst hstep
      exact ⟨rfl, rfl⟩
    · simp at hstep
  · simp at hstep

theorem Sys.run_invariant_zero (evs : List Event) :
    ∀ (s s1 : Sys), Sys.run 0 evs s = some s1 →
    s.sem = none ∧ s.acceptor = AcceptorPC.accept →
    s1.sem = none ∧ s1.acceptor = AcceptorPC.accept := by
  induction evs with
  | nil =>
    intro s s1 h hinv
    simp only [Sys.run, Option.some.injEq] at h
    subst h
    exact hinv
  | cons ev evs ih =>
    intro s s1 h hinv
    rw [Sys.run] at h
    cases hstep : Sys.step 0 s ev with
    | none => simp [hstep] at h
    | some s2 =>
      simp only [hstep] at h
      exact ih s2 s1 h (Sys.step_invariant_zero s s2 ev hstep hinv)

theorem Sys.run_accepts_zero (n : Nat) :
    ∀ (s : Sys), s.exit = none → s.acceptor = AcceptorPC.accept →
    s.main = MainPC.waitSignal →
    Sys.run 0 (List.replicate n Event.acceptOk) s = some { s with workers := s.workers + n } := by
  induction n with
  | zero =>
    intro s _ _ _
    simp [Sys.run]
  | succ n ih =>
    intro s hex hacc hmain
    rw [List.replicate_succ, Sys.run]
    have hstep : Sys.step 0 s Event.acceptOk =
        some { s with workers := s.workers + 1, acceptor := AcceptorPC.accept } := by
      simp [Sys.step, hex, hacc, hmain, loopTop, hasConcurrencyControl]
    simp only [hstep]
    have := ih { s with workers := s.workers + 1, acceptor := AcceptorPC.accept } hex rfl hmain
    rw [this]
    simp only [Option.some.injEq, Sys.mk.injEq, true_and, and_true]
    exact ⟨hacc.symm, by omega⟩

theorem drain_total (fuel : Nat) (writes : List (List Byte))
    (hfuel : 8194 + writes.flatten.length ≤ fuel) : (drain fuel writes).isSome = true := by
  refine drainLoop_total maxLineLen fuel fuel (newOutput writes) [] (by decide)
    (by simp [newOutput, defaultBufSize]) (by simp [newOutput]) rfl ?_ ?_
  · show maxLineLen + defaultBufSize + 2 ≤ fuel
    simp only [maxLineLen, defaultBufSize]
    omega
  · show ([] ++ writes.flatten).length + 1 ≤ fuel
    rw [List.nil_append]
    omega

theorem worker_steps (fuel : Nat) (env : WorkerEnv)
    (hfuel : 8194 + env.diag.flatten.length ≤ fuel) :
    ∃ run, worker fuel env = some run ∧
      run.steps = keepAliveCalls env.kind env.tcpKeepAlive ++ startCalls env.started ++
        waitCalls env ++ teardownCalls ++ deferredCalls env.hasConcurrencyControl := by
  have htot : (drain fuel (if env.started.isSome then env.diag else [])).isSome = true := by
    apply drain_total
    split
    · exact hfuel
    · simp only [List.flatten_nil, List.length_nil]
      omega
  cases hd : drain fuel (if env.started.isSome then env.diag else []) with
  | none => simp [hd] at htot
  | some r =>
    refine ⟨{ steps := keepAliveCalls env.kind env.tcpKeepAlive ++ startCalls env.started ++
                waitCalls env ++ teardownCalls ++ deferredCalls env.hasConcurrencyControl
              drainLines := r.1.map (fun c => (env.started.getD 0, c)) }, ?_, rfl⟩
    simp [worker, drainLog, hd]

theorem keepAliveCalls_mem (kind : ConnKind) (k : Nat) (a : Action)
    (h : a ∈ keepAliveCalls kind k) :
    a = Action.setKeepAlive ∨ ∃ d, a = Action.setKeepAlivePeriod d := by
  unfold keepAliveCalls at h
  cases kind with
  | tcp =>
    simp only at h
    split at h
    · simp only [List.mem_cons, List.mem_singleton, List.not_mem_nil, or_false] at h
      rcases h with h | h
      · exact Or.inl h
      · exact Or.inr ⟨_, h⟩
    · simp at h
  | unix => simp at h

theorem startCalls_mem (st : Option Nat) (a : Action) (h : a ∈ startCalls st) :
    a = Action.cmdStart ∨ a = Action.logStartError ∨ ∃ pid, a = Action.logServing pid := by
  unfold startCalls at h
  cases st with
  | none =>
    simp only [List.mem_cons, List.mem_singleton, List.not_mem_nil, or_false] at h
    rcases h with h | h
    · exact Or.inl h
    · exact Or.inr (Or.inl h)
  | some pid =>
    simp only [List.mem_cons, List.mem_singleton, List.not_mem_nil, or_false] at h
    rcases h with h | h
    · exact Or.inl h
    · exact Or.inr (Or.inr ⟨_, h⟩)

theorem waitCalls_mem (env : WorkerEnv) (a : Action) (h : a ∈ waitCalls env) :
    a = Action.processWait ∨ ∃ pid b, a = Action.logExited pid b := by
  unfold waitCalls at h
  cases hs : env.started with
  | none => simp [hs] at h
  | some pid =>
    simp only [hs] at h
    split at h
    · simp only [List.mem_cons, List.mem_singleton, List.not_mem_nil, or_false] at h
      rcases h with h | h
      · exact Or.inl h
      · exact Or.inr ⟨_, _, h⟩
    · simp only [List.mem_singleton] at h
      exact Or.inl h

theorem splitLines_flatten (l : List Byte) : (splitLines l).flatten = l := by
  induction l with
  | nil => rfl
  | cons x xs ih =>
    rw [splitLines]
    by_cases hx : x = newline
    · rw [if_pos hx, List.flatten_cons, ih]
      rfl
    · rw [if_neg hx]
      cases hsl : splitLines xs with
      | nil =>
        rw [splitLines_eq_nil hsl]
        rfl
      | cons l ls =>
        rw [hsl] at ih
        simp only [List.flatten_cons] at ih ⊢
        rw [List.cons_append, ih]

theorem pre_teardown_no_release (env : WorkerEnv) :
    Action.release ∉ keepAliveCalls env.kind env.tcpKeepAlive ++ startCalls env.started ++
      waitCalls env ++ teardownCalls := by
  intro h
  rcases List.mem_append.1 h with h | h
  · rcases List.mem_append.1 h with h | h
    · rcases List.mem_append.1 h with h | h
      · rcases keepAliveCalls_mem _ _ _ h with h | ⟨d, h⟩ <;> cases h
      · rcases startCalls_mem _ _ h with h | h | ⟨pid, h⟩ <;> cases h
    · rcases waitCalls_mem _ _ h with h | ⟨pid, b, h⟩ <;> cases h
  · simp [teardownCalls] at h

theorem steps_logs (env : WorkerEnv) :
    (keepAliveCalls env.kind env.tcpKeepAlive ++ startCalls env.started ++
      waitCalls env ++ teardownCalls ++
      deferredCalls env.hasConcurrencyControl).filter Action.isLog =
    match env.started with
    | none => [Action.logStartError]
    | some pid =>
      if env.processWaitOk then [Action.logServing pid, Action.logExited pid env.success]
      else [Action.logServing pid] := by
  have hk : (keepAliveCalls env.kind env.tcpKeepAlive).filter Action.isLog = [] := by
    unfold keepAliveCalls
    cases env.kind with
    | tcp =>
      simp only
      split <;> simp [Action.isLog]
    | unix => simp
  have hd : (deferredCalls env.hasConcurrencyControl).filter Action.isLog = [] := by
    unfold deferredCalls
    split <;> simp [Action.isLog]
  have ht : teardownCalls.filter Action.isLog = [] := by
    simp [teardownCalls, Action.isLog]
  simp only [List.filter_append, hk, hd, ht, List.nil_append, List.append_nil]
  cases hs : env.started with
  | none => simp [startCalls, waitCalls, hs, Action.isLog]
  | some pid =>
    by_cases hw : env.processWaitOk = true
    · simp [startCalls, waitCalls, hs, hw, Action.isLog]
    · simp [startCalls, waitCalls, hs, hw, Action.isLog]

theorem worker_some_steps (fuel : Nat) (env : WorkerEnv) (run : WorkerRun)
    (h : worker fuel env = some run) :
    run.steps = keepAliveCalls env.kind env.tcpKeepAlive ++ startCalls env.started ++
      waitCalls env ++ teardownCalls ++ deferredCalls env.hasConcurrencyControl := by
  unfold worker at h
  cases hd : drainLog fuel (if env.started.isSome then env.diag else []) with
  | none => simp [hd] at h
  | some chunks =>
    simp only [hd, Option.some.injEq] at h
    rw [← h]

/-- C1, admission bound. With a configured maximum `M > 0`, in every state the process
reaches by any sequence of acceptor, worker and shutdown steps, the number of tokens
held is at most `M`; the tokens held are exactly those of the workers that have not
released yet plus the one the acceptor carries from `Acquire` to the launch of the
next worker, so the number of unreleased sessions is at most `M` as well. -/
theorem admission_bound (M : Nat) (hM : 0 < M) (evs : List Event) (s : Sys)
    (hrun : Sys.run M evs (Sys.init M) = some s) :
    s.held ≤ M ∧ s.workers + s.acceptorToken = s.held ∧ s.workers ≤ M := by
  have hinit : ∃ cur, (Sys.init M).sem = some cur ∧ cur ≤ M ∧
      cur = (Sys.init M).workers +
        (if (Sys.init M).acceptor = AcceptorPC.accept then 1 else 0) := by
    refine ⟨0, by simp [Sys.init, hasConcurrencyControl, hM], by omega, ?_⟩
    simp [Sys.init, loopTop, hasConcurrencyControl, hM]
  obtain ⟨⟨cur, hsem, hle, hcur⟩, -⟩ :=
    Sys.run_invariant M hM evs (Sys.init M) s hrun hinit (by simp [Sys.init])
  have hheld : s.held = cur := by simp [Sys.held, hsem]
  have htok : s.acceptorToken = if s.acceptor = AcceptorPC.accept then 1 else 0 := by
    simp [Sys.acceptorToken, hsem]
  rw [hheld, htok]
  exact ⟨hle, hcur.symm, by omega⟩

/-- C1 at a concrete run: `M = 2`, two sessions admitted, one finished, a third token
acquired. -/
theorem admission_bound_witness :
    Sys.held (Sys.mk (some 2) AcceptorPC.accept MainPC.waitSignal 1 none) ≤ 2 ∧
    1 + Sys.acceptorToken (Sys.mk (some 2) AcceptorPC.accept MainPC.waitSignal 1 none) =
      Sys.held (Sys.mk (some 2) AcceptorPC.accept MainPC.waitSignal 1 none) ∧
    1 ≤ 2 :=
  admission_bound 2 (by decide)
    [Event.acquireOk, Event.acceptOk, Event.acquireOk, Event.acceptOk, Event.workerDone,
      Event.acquireOk]
    (Sys.mk (some 2) AcceptorPC.accept MainPC.waitSignal 1 none)
    (by decide)

/-- C2, the run that breaks it. With one session in service and the acceptor blocked in
`l.Accept()`, the interrupt closes the listener; the error `Accept` then returns goes
to `log.Fatalf` like any other, and the process ends with status 1 while the
session's worker is still outstanding. -/
theorem accept_error_on_shutdown_is_fatal :
    Sys.run 20
      [Event.acquireOk, Event.acceptOk, Event.acquireOk, Event.signal, Event.acceptErr]
      (Sys.init 20) =
    some (Sys.mk (some 2) AcceptorPC.accept MainPC.closed 1 (some 1)) := by
  decide

/-- C4, token release on every path. With admission control enabled, whatever the
results of `Start`, of the two waits and of the closes, a worker comes to its end and
its steps are some steps without a release, among them the close of the session
stream and the end of the drain, followed by the release of the token and, last of
all, `wg.Done()`: the token is released exactly once, after everything the session
does. -/
theorem release_on_every_path (env : WorkerEnv) (hcc : env.hasConcurrencyControl = true)
    (fuel : Nat) (hfuel : 8194 + env.diag.flatten.length ≤ fuel) :
    ∃ run pre, worker fuel env = some run ∧
      run.steps = pre ++ [Action.release, Action.wgDone] ∧
      Action.release ∉ pre ∧ Action.connClose ∈ pre ∧ Action.drainDone ∈ pre ∧
      run.steps.count Action.release = 1 := by
  obtain ⟨run, hrun, hsteps⟩ := worker_steps fuel env hfuel
  have hno := pre_teardown_no_release env
  refine ⟨run, keepAliveCalls env.kind env.tcpKeepAlive ++ startCalls env.started ++
    waitCalls env ++ teardownCalls, hrun, ?_, hno, ?_, ?_, ?_⟩
  · rw [hsteps, hcc]
    rfl
  · exact List.mem_append_right _ (by simp [teardownCalls])
  · exact List.mem_append_right _ (by simp [teardownCalls])
  · rw [hsteps, hcc, List.count_append, List.count_eq_zero_of_not_mem hno]
    decide

/-- C4 at a concrete worker: the spawn fails, every later call fails too. -/
theorem release_on_every_path_witness :
    ∃ run pre,
      worker 8194
        { hasConcurrencyControl := true, kind := ConnKind.tcp, tcpKeepAlive := 120,
          started := none, processWaitOk := false, success := false,
          closeReadOk := false, cmdWaitOk := false, connCloseOk := false,
          diag := [] } = some run ∧
      run.steps = pre ++ [Action.release, Action.wgDone] ∧
      Action.release ∉ pre ∧ Action.connClose ∈ pre ∧ Action.drainDone ∈ pre ∧
      run.steps.count Action.release = 1 :=
  release_on_every_path
    { hasConcurrencyControl := true, kind := ConnKind.tcp, tcpKeepAlive := 120,
      started := none, processWaitOk := false, success := false,
      closeReadOk := false, cmdWaitOk := false, connCloseOk := false, diag := [] }
    rfl 8194 (by decide)

/-- C5, short lines are logged verbatim. When the pipe hands the diagnostic stream over
in non-empty pieces (`writes`) and every line of the stream, terminator included, and
its unterminated remainder at the end have at most 4096 bytes, the drain comes to its
end and the chunks it has logged are exactly the lines of the stream, in order. -/
theorem drain_short_lines_verbatim (writes : List (List Byte))
    (hne : ∀ w ∈ writes, w ≠ [])
    (hshort : ∀ l ∈ splitLines writes.flatten, l.length ≤ 4096)
    (fuel : Nat) (hfuel : 8194 + writes.flatten.length ≤ fuel) :
    drainLog fuel writes = some (splitLines writes.flatten) := by
  have htot := drain_total fuel writes hfuel
  cases hd : drain fuel writes with
  | none => simp [hd] at htot
  | some r =>
    obtain ⟨log, x, b1⟩ := r
    have hrest : (newOutput writes).rest = writes.flatten := by
      simp [Reader.rest, newOutput]
    have := drainLoop_lines maxLineLen fuel fuel (newOutput writes) [] log x b1 (by decide)
      (by simp [newOutput]) rfl hne (by rw [hrest]; exact hshort) hd
    rw [hrest, List.nil_append] at this
    simp [drainLog, hd, this]

/-- C5 at a concrete stream: two lines and a remainder, cut by the pipe in the middle
of a line. -/
theorem drain_short_lines_verbatim_witness :
    drainLog 8300 [[104, 105, 10, 104], [111, 10, 33]] =
      some [[104, 105, 10], [104, 111, 10], [33]] :=
  drain_short_lines_verbatim [[104, 105, 10, 104], [111, 10, 33]] (by decide) (by decide)
    8300 (by decide)

/-- C6, the stream that breaks it. The child writes a newline and then 8191 bytes
`x` without a terminator, in one write. The drain logs the newline, and then one
chunk of 8191 bytes: the 4095 bytes left in the buffer of the `bufio.Reader` by the
first read, and the 4096 bytes the limit lets through in the second round. -/
theorem drain_chunk_exceeds_cap :
    (drainLog 10000 [newline :: List.replicate 8191 120]).map (List.map List.length) =
      some [1, 8191] ∧ maxLineLen < 8191 := by
  decide!

/-- C7, the cap is not the end of the stream and nothing is lost. When the pipe hands a
finite stream over in non-empty pieces and is then closed, the drain comes to its end;
it returns on `io.EOF` with `limitedLines.N` not 0, so on the end of the pipe and not
on the limit, after the pipe has delivered its end and with nothing left in the pipe
or in the buffer; every chunk it has logged is non-empty and the chunks, put together
in order, are the stream. -/
theorem drain_complete (writes : List (List Byte)) (hne : ∀ w ∈ writes, w ≠ [])
    (fuel : Nat) (hfuel : 8194 + writes.flatten.length ≤ fuel) :
    ∃ log out, drain fuel writes = some (log, IOError.EOF, out) ∧
      out.rd.N ≠ 0 ∧ out.rd.R.eofSeen = true ∧ out.rd.R.writes = [] ∧ out.buf = [] ∧
      (∀ c ∈ log, c ≠ []) ∧ log.flatten = writes.flatten := by
  have htot := drain_total fuel writes hfuel
  cases hd : drain fuel writes with
  | none => simp [hd] at htot
  | some r =>
    obtain ⟨log, x, b1⟩ := r
    obtain ⟨chunks, h1, h2, h3, h4, h5, h6, h7, h8⟩ :=
      drainLoop_spec maxLineLen fuel fuel (newOutput writes) [] log x b1 (by decide)
        (by simp [newOutput]) rfl hne hd
    rw [List.nil_append] at h1
    subst h1
    subst h4
    refine ⟨log, b1, rfl, h5, h7, h6, h8, h3, ?_⟩
    rw [h2]
    simp [Reader.rest, newOutput]

/-- C7 at a concrete stream. -/
theorem drain_complete_witness :
    ∃ log out, drain 8300 [[104, 105, 10, 104], [111, 10, 33]] =
        some (log, IOError.EOF, out) ∧
      out.rd.N ≠ 0 ∧ out.rd.R.eofSeen = true ∧ out.rd.R.writes = [] ∧ out.buf = [] ∧
      (∀ c ∈ log, c ≠ []) ∧
      log.flatten = List.flatten [[104, 105, 10, 104], [111, 10, 33]] :=
  drain_complete [[104, 105, 10, 104], [111, 10, 33]] (by decide) 8300 (by decide)

/-- C8 as stated fails: in a worker whose wait for the child, `CloseRead`, `cmd.Wait`
and `conn.Close` all fail, the only line the worker logs is the "serving" line. -/
theorem wait_and_close_failures_unlogged :
    (worker 8194
      { hasConcurrencyControl := true, kind := ConnKind.unix, tcpKeepAlive := 120,
        started := some 7, processWaitOk := false, success := false,
        closeReadOk := false, cmdWaitOk := false, connCloseOk := false,
        diag := [] }).map (fun r => r.steps.filter Action.isLog) =
      some [Action.logServing 7] := by
  decide!

/-- C8, amended. Of the failures local to a session only the failed spawn is logged:
the lines a worker logs itself are the spawn error when `Start` failed, else the
"serving" line and, when the wait for the child returned no error, the exit line;
the results of `CloseRead`, `cmd.Wait` and `conn.Close` change nothing in what the
worker does. In every case the worker goes through its whole teardown
(`CloseRead`, `cmd.Wait`, `conn.Close`, `b.Close`, the end of the drain) and its
deferred calls, and ends. -/
theorem session_failures_contained (env : WorkerEnv) (fuel : Nat)
    (hfuel : 8194 + env.diag.flatten.length ≤ fuel) :
    ∃ run pre, worker fuel env = some run ∧
      run.steps = pre ++ teardownCalls ++ deferredCalls env.hasConcurrencyControl ∧
      run.steps.filter Action.isLog =
        (match env.started with
         | none => [Action.logStartError]
         | some pid =>
           if env.processWaitOk then
             [Action.logServing pid, Action.logExited pid env.success]
           else [Action.logServing pid]) ∧
      ∀ r1 r2 r3 : Bool,
        worker fuel { env with closeReadOk := r1, cmdWaitOk := r2, connCloseOk := r3 } =
          some run := by
  obtain ⟨run, hrun, hsteps⟩ := worker_steps fuel env hfuel
  refine ⟨run, keepAliveCalls env.kind env.tcpKeepAlive ++ startCalls env.started ++
    waitCalls env, hrun, hsteps, ?_, ?_⟩
  · rw [hsteps]
    exact steps_logs env
  · intro r1 r2 r3
    rw [← hrun]
    rfl

/-- C8 at a concrete worker: the child is started and the wait for it fails. -/
theorem session_failures_contained_witness :
    ∃ run pre,
      worker 8194
        { hasConcurrencyControl := true, kind := ConnKind.unix, tcpKeepAlive := 120,
          started := some 7, processWaitOk := false, success := false,
          closeReadOk := true, cmdWaitOk := true, connCloseOk := true,
          diag := [] } = some run ∧
      run.steps = pre ++ teardownCalls ++ deferredCalls true ∧
      run.steps.filter Action.isLog = [Action.logServing 7] ∧
      ∀ r1 r2 r3 : Bool,
        worker 8194
          { hasConcurrencyControl := true, kind := ConnKind.unix, tcpKeepAlive := 120,
            started := some 7, processWaitOk := false, success := false,
            closeReadOk := r1, cmdWaitOk := r2, connCloseOk := r3,
            diag := [] } = some run :=
  session_failures_contained
    { hasConcurrencyControl := true, kind := ConnKind.unix, tcpKeepAlive := 120,
      started := some 7, processWaitOk := false, success := false,
      closeReadOk := true, cmdWaitOk := true, connCloseOk := true, diag := [] }
    8194 (by decide)

/-- C9, no gating when the maximum is 0. With `maxConcurrent = 0` no semaphore is made;
in every state the process reaches the semaphore is still nil, the acceptor stands at
`l.Accept()`, neither outcome of `Acquire` is a step it can take, and as long as the
process lives and the listener is open the accept step can be taken, whatever the
number of workers; and no worker run without concurrency control has a release among
its steps. -/
theorem no_gating_when_zero (evs : List Event) (s : Sys)
    (hrun : Sys.run 0 evs (Sys.init 0) = some s) :
    (Sys.init 0).sem = none ∧ s.sem = none ∧ s.acceptor = AcceptorPC.accept ∧
    Sys.step 0 s Event.acquireOk = none ∧ Sys.step 0 s Event.acquireCancelled = none ∧
    (s.exit = none → s.main = MainPC.waitSignal →
      Sys.step 0 s Event.acceptOk = some { s with workers := s.workers + 1 }) ∧
    (∀ (fuel : Nat) (env : WorkerEnv) (run : WorkerRun),
      env.hasConcurrencyControl = hasConcurrencyControl 0 → worker fuel env = some run →
      Action.release ∉ run.steps) := by
  obtain ⟨hsem, hacc⟩ := Sys.run_invariant_zero evs (Sys.init 0) s hrun
    (by simp [Sys.init, loopTop, hasConcurrencyControl])
  refine ⟨by simp [Sys.init, hasConcurrencyControl], hsem, hacc, ?_, ?_, ?_, ?_⟩
  · unfold Sys.step
    split
    · rfl
    · simp [hacc]
  · unfold Sys.step
    split
    · rfl
    · simp [hacc]
  · intro hex hmain
    simp only [Sys.step, hex, hacc, hmain, loopTop, hasConcurrencyControl]
    simp
  · intro fuel env run hcc hw
    rw [worker_some_steps fuel env run hw, hcc]
    intro hmem
    rcases List.mem_append.1 hmem with h | h
    · exact pre_teardown_no_release env h
    · simp [deferredCalls, hasConcurrencyControl] at h

/-- C9 at a concrete run: three sessions admitted in a row, none finished. -/
theorem no_gating_when_zero_witness :
    (Sys.init 0).sem = none ∧
    (Sys.mk none AcceptorPC.accept MainPC.waitSignal 3 none).sem = none ∧
    (Sys.mk none AcceptorPC.accept MainPC.waitSignal 3 none).acceptor = AcceptorPC.accept ∧
    Sys.step 0 (Sys.mk none AcceptorPC.accept MainPC.waitSignal 3 none) Event.acquireOk =
      none ∧
    Sys.step 0 (Sys.mk none AcceptorPC.accept MainPC.waitSignal 3 none)
      Event.acquireCancelled = none ∧
    ((Sys.mk none AcceptorPC.accept MainPC.waitSignal 3 none).exit = none →
      (Sys.mk none AcceptorPC.accept MainPC.waitSignal 3 none).main = MainPC.waitSignal →
      Sys.step 0 (Sys.mk none AcceptorPC.accept MainPC.waitSignal 3 none) Event.acceptOk =
        some (Sys.mk none AcceptorPC.accept MainPC.waitSignal (3 + 1) none)) ∧
    (∀ (fuel : Nat) (env : WorkerEnv) (run : WorkerRun),
      env.hasConcurrencyControl = hasConcurrencyControl 0 → worker fuel env = some run →
      Action.release ∉ run.steps) :=
  no_gating_when_zero [Event.acceptOk, Event.acceptOk, Event.acceptOk]
    (Sys.mk none AcceptorPC.accept MainPC.waitSignal 3 none) (by decide)

/-- C10, the value that breaks it. For `--tcp-keepalive 9223372037` the product
`time.Second * time.Duration(k)` exceeds the largest `int64`; the period the worker
passes to `SetKeepAlivePeriod` is the wrapped, negative number and not
`9223372037 * 10^9` nanoseconds. -/
theorem keepalive_period_wraps :
    keepAliveCalls ConnKind.tcp 9223372037 =
      [Action.setKeepAlive, Action.setKeepAlivePeriod (-9223372036709551616)] ∧
    ((-9223372036709551616 : Int) ≠ 9223372037 * 10 ^ 9) := by
  decide

/-! ## Further properties of the code -/

/-- The keep-alive period is exact in range: for a TCP session and a flag value `k`
with `0 < k ≤ 9223372036` the worker enables keep-alive and passes a period of exactly
`k * 10^9` nanoseconds. -/
theorem keepalive_period_exact (k : Nat) (hpos : 0 < k) (hle : k ≤ 9223372036) :
    keepAliveCalls ConnKind.tcp k =
      [Action.setKeepAlive, Action.setKeepAlivePeriod ((k : Int) * 1000000000)] := by
  have hval : keepAlivePeriod k = (k : Int) * 1000000000 := by
    unfold keepAlivePeriod mulInt64 toInt64 timeSecond
    have hmod : k % 2 ^ 64 = k := Nat.mod_eq_of_lt (by omega)
    rw [hmod]
    split <;> omega
  simp [keepAliveCalls, hpos, hval]

/-- The exact period at the default of the flag, 120 seconds. -/
theorem keepalive_period_exact_witness :
    keepAliveCalls ConnKind.tcp 120 =
      [Action.setKeepAlive, Action.setKeepAlivePeriod (((120 : Nat) : Int) * 1000000000)] :=
  keepalive_period_exact 120 (by decide) (by decide)

/-- No keep-alive call is made when the flag is 0 or the session is not a TCP one. -/
theorem keepalive_disabled (kind : ConnKind) (k : Nat) :
    keepAliveCalls kind 0 = [] ∧ keepAliveCalls ConnKind.unix k = [] := by
  cases kind <;> simp [keepAliveCalls]

/-- The drain always comes to an end: whatever the child writes before the pipe is
closed, empty writes included, the drain goroutine returns. -/
theorem drain_terminates (writes : List (List Byte)) (fuel : Nat)
    (hfuel : 8194 + writes.flatten.length ≤ fuel) :
    ∃ log e out, drain fuel writes = some (log, e, out) := by
  have htot := drain_total fuel writes hfuel
  cases hd : drain fuel writes with
  | none => simp [hd] at htot
  | some r => exact ⟨r.1, r.2.1, r.2.2, rfl⟩

/-- The drain returns on a pipe that carries one empty write. -/
theorem drain_terminates_witness :
    ∃ log e out, drain 8194 [[]] = some (log, e, out) :=
  drain_terminates [[]] 8194 (by decide)

/-- Every error of `l.Accept()` ends the process with status 1, whether or not the
listener was closed by the shutdown sequence. -/
theorem accept_error_always_fatal (M : Nat) (s : Sys) (hex : s.exit = none)
    (hacc : s.acceptor = AcceptorPC.accept) :
    Sys.step M s Event.acceptErr = some { s with exit := some 1 } := by
  simp [Sys.step, hex, hacc]

/-- An `Accept` error before any signal is fatal as well. -/
theorem accept_error_always_fatal_witness :
    Sys.step 20 (Sys.mk (some 1) AcceptorPC.accept MainPC.waitSignal 0 none)
      Event.acceptErr =
    some { Sys.mk (some 1) AcceptorPC.accept MainPC.waitSignal 0 none with exit := some 1 } :=
  accept_error_always_fatal 20 (Sys.mk (some 1) AcceptorPC.accept MainPC.waitSignal 0 none)
    rfl rfl

/-- Admission blocks at the limit: in a state with `M` tokens held the acceptor cannot
take another token; it has to wait for a worker to release one. -/
theorem acquire_blocks_at_limit (M : Nat) (s : Sys) (hfull : s.held = M) :
    Sys.step M s Event.acquireOk = none := by
  have hsz := toInt64_le M
  unfold Sys.step
  split
  · rfl
  · cases hacc : s.acceptor <;> cases hsem : s.sem <;> simp only []
    rename_i cur
    have : cur = M := by simpa [Sys.held, hsem] using hfull
    subst this
    have hnot : ¬ ((cur : Int) + 1 ≤ semSize cur) := by
      unfold semSize
      omega
    simp [hnot]

/-- With `M = 1` and one session in service the acceptor is blocked in `Acquire`. -/
theorem acquire_blocks_at_limit_witness :
    Sys.step 1 (Sys.mk (some 1) AcceptorPC.acquire MainPC.waitSignal 1 none)
      Event.acquireOk = none :=
  acquire_blocks_at_limit 1 (Sys.mk (some 1) AcceptorPC.acquire MainPC.waitSignal 1 none)
    (by decide)

theorem Reader.readSliceLoop_leftover (delim : Byte) (fuel : Nat) :
    ∀ (s : Nat) (b : Reader) (frag : List Byte) (b1 : Reader),
    b.buf.length ≤ b.size →
    Reader.readSliceLoop delim fuel s b = some (frag, none, b1) →
    b1.buf.length + 1 ≤ b.size := by
  induction fuel with
  | zero =>
    intro s b frag b1 _ h
    simp [Reader.readSliceLoop] at h
  | succ fuel ih =>
    intro s b frag b1 hb h
    rw [Reader.readSliceLoop] at h
    cases hidx : indexByte (b.buf.drop s) delim with
    | some i =>
      simp only [hidx, Option.some.injEq, Prod.mk.injEq, true_and] at h
      obtain ⟨-, hb1⟩ := h
      obtain ⟨pre, post, hl, hlen, -⟩ := indexByte_some hidx
      have hdl : (b.buf.drop s).length = pre.length + (post.length + 1) := by
        rw [hl]; simp
      rw [List.length_drop] at hdl
      rw [← hb1]
      show (b.buf.drop (s + i + 1)).length + 1 ≤ b.size
      rw [List.length_drop]
      omega
    | none =>
      simp only [hidx] at h
      cases herr : b.err with
      | some x => simp [herr] at h
      | none =>
        simp only [herr] at h
        by_cases hfull : b.size ≤ b.buf.length
        · simp [if_pos hfull] at h
        · simp only [if_neg hfull] at h
          obtain ⟨hadv, -, -⟩ := Reader.fill_spec b (by omega)
          have := ih _ b.fill frag b1 (hadv.bounded hb) h
          rw [hadv.size_eq] at this
          exact this

theorem Reader.collectFragments_leftover (inner : Nat) (delim : Byte) (fuel : Nat) :
    ∀ (full : List Byte) (b : Reader) (ln : List Byte) (b1 : Reader),
    b.buf.length ≤ b.size → b.err = none →
    Reader.collectFragments inner delim fuel full b = some (ln, none, b1) →
    b1.buf.length + 1 ≤ b.size := by
  induction fuel with
  | zero =>
    intro full b ln b1 _ _ h
    simp [Reader.collectFragments] at h
  | succ fuel ih =>
    intro full b ln b1 hb herr h
    rw [Reader.collectFragments] at h
    cases hrs : b.ReadSlice inner delim with
    | none => simp [hrs] at h
    | some r =>
      obtain ⟨frag, e1, b2⟩ := r
      obtain ⟨a1, a2, a3, a4⟩ := Reader.readSliceLoop_spec delim inner 0 b frag e1 b2 hb
        (by simp) (by rw [herr]; simp) hrs
      cases e1 with
      | none =>
        simp only [hrs, Option.some.injEq, Prod.mk.injEq, true_and] at h
        obtain ⟨-, rfl⟩ := h
        exact Reader.readSliceLoop_leftover delim inner 0 b frag b2 hb hrs
      | some x =>
        obtain ⟨c1, c2, c3, c4, c5⟩ := a4 x rfl
        simp only [hrs] at h
        by_cases hx : x = IOError.ErrBufferFull
        · simp only [if_pos hx] at h
          have := ih (full ++ frag) b2 ln b1 (a1.bounded hb) c3 h
          rw [a1.size_eq] at this
          exact this
        · simp [if_neg hx] at h

theorem drainLoop_chunk_bound (cap inner fuel : Nat) :
    ∀ (b : Reader) (log log1 : List (List Byte)) (x : IOError) (b1 : Reader),
    b.buf.length + 1 ≤ b.size → b.err = none →
    (∀ c ∈ log, c.length + 1 ≤ cap + b.size) →
    drainLoop cap inner fuel b log = some (log1, x, b1) →
    ∀ c ∈ log1, c.length + 1 ≤ cap + b.size := by
  induction fuel with
  | zero =>
    intro b log log1 x b1 _ _ _ h
    simp [drainLoop] at h
  | succ fuel ih =>
    intro b log log1 x b1 hb herr hlog h
    rw [drainLoop_succ] at h
    cases hrs : (b.setN cap).ReadString inner newline with
    | none => simp [hrs] at h
    | some r =>
      obtain ⟨ln, e, b2⟩ := r
      obtain ⟨a1, a2, a3, a4, a5, a6, a7, a8⟩ :=
        Reader.ReadString_spec cap inner b ln e b2 (by omega) herr hrs
      obtain ⟨c0, hc0, hflat, -, hc1, hc2⟩ := logged_chunk ln log
      simp only [hrs] at h
      rw [hc0] at h
      have hlog2 : ∀ c ∈ log ++ c0, c.length + 1 ≤ cap + b2.size := by
        intro c hc
        rw [a1]
        rcases List.mem_append.1 hc with h1 | h1
        · exact hlog c h1
        · by_cases hln : ln = []
          · rw [hc2 hln] at h1
            simp at h1
          · rw [hc1 hln, List.mem_singleton] at h1
            subst h1
            omega
      cases e with
      | none =>
        have hleft := Reader.collectFragments_leftover inner newline inner [] (b.setN cap)
          ln b2 (by show b.buf.length ≤ b.size; omega) herr hrs
        have := ih b2 _ log1 x b1 (by rw [a1]; exact hleft) a5 hlog2 h
        rw [a1] at this
        exact this
      | some y =>
        obtain ⟨-, c2, -⟩ := a8 y rfl
        by_cases hc : b2.rd.N = 0 ∧ y = IOError.EOF
        · simp only [if_pos hc] at h
          have := ih b2 _ log1 x b1 (by rw [c2, a1]; simp; omega) a5 hlog2 h
          rw [a1] at this
          exact this
        · simp only [if_neg hc, Option.some.injEq, Prod.mk.injEq] at h
          obtain ⟨rfl, rfl, rfl⟩ := h
          rw [← a1]
          exact hlog2

/-- What the limit does guarantee: whatever the child writes, no chunk the drain logs
is longer than 8191 bytes, the 4096 bytes the limit lets through in one round and the
up to 4095 bytes the reader had buffered before. -/
theorem drain_chunk_bound (writes : List (List Byte)) (fuel : Nat)
    (log : List (List Byte)) (hlog : drainLog fuel writes = some log) :
    ∀ c ∈ log, c.length ≤ 8191 := by
  unfold drainLog at hlog
  cases hd : drain fuel writes with
  | none => simp [hd] at hlog
  | some r =>
    obtain ⟨log1, x, b1⟩ := r
    simp only [hd, Option.map_some', Option.some.injEq] at hlog
    subst hlog
    have := drainLoop_chunk_bound maxLineLen fuel fuel (newOutput writes) [] log1 x b1
      (by simp [newOutput, defaultBufSize]) rfl (by simp) hd
    intro c hc
    have h1 := this c hc
    simp only [maxLineLen, newOutput, defaultBufSize] at h1
    omega

/-- The bound on the stream of the counterexample to the cap of 4096 bytes. -/
theorem drain_chunk_bound_witness :
    ∀ c ∈ [[newline], [120, 120, 10], [120]], c.length ≤ 8191 :=
  drain_chunk_bound [[newline, 120, 120], [10, 120]] 8300
    [[newline], [120, 120, 10], [120]] (by decide!)

/-- Once the process has ended nothing kills a child: the goroutine that would call
`os.Process.Kill` is gone with the process, so a child that still runs goes on
running. -/
theorem no_kill_after_exit (M : Nat) (s : Proc) (i : Nat) (hex : s.sys.exit ≠ none) :
    Proc.step M s (ProcEvent.kill i) = none := by
  unfold Proc.step
  simp only []
  split
  · rfl
  · rename_i h
    cases he : s.sys.exit with
    | none => exact absurd he hex
    | some v => simp [he] at h

/-- The run in which the child survives: the acceptor is in `l.Accept()` when the
interrupt closes the listener, `log.Fatalf` ends the process before any kill, and the
child is left running. -/
theorem no_kill_after_exit_witness :
    Proc.run 20
      [ProcEvent.sys Event.acquireOk, ProcEvent.sys Event.acceptOk,
        ProcEvent.cmdStart 0 true, ProcEvent.sys Event.acquireOk,
        ProcEvent.sys Event.signal, ProcEvent.sys Event.acceptErr]
      (Proc.init 20) =
      some (Proc.mk (Sys.mk (some 2) AcceptorPC.accept MainPC.closed 1 (some 1))
        [Session.mk WorkerPC.wait ChildState.running]) ∧
    Proc.step 20
      (Proc.mk (Sys.mk (some 2) AcceptorPC.accept MainPC.closed 1 (some 1))
        [Session.mk WorkerPC.wait ChildState.running])
      (ProcEvent.kill 0) = none :=
  ⟨by decide,
    no_kill_after_exit 20
      (Proc.mk (Sys.mk (some 2) AcceptorPC.accept MainPC.closed 1 (some 1))
        [Session.mk WorkerPC.wait ChildState.running]) 0 (by decide)⟩

end Netbin
